import Mathlib

/-!
# Move-to-front linked list: a pointer-level model

The C++ sources `LinkedList.cpp` and `MTFList.cpp` manipulate a chain of `Node`s
through raw pointers.  The model keeps that level of detail: a `Store` maps
addresses to allocated `Node`s, a pointer is an `Option Nat` (`none` is
`nullptr`), and every pointer access can fail.  Loops carry a fuel argument,
because a store may hold a cyclic chain; the theorems show that any fuel
larger than the length of the list is enough.

The `int` member `currentSize` is modelled as an unbounded integer: it counts
allocated nodes, and leaving the range of `int` would take 2^31 of them.  The
`int` member `traverseCount`, declared in `IList.h`, is modelled twice.  The
methods `contains` read it as an unbounded integer; the methods `containsInt`
keep it a 32-bit `int`, which wraps around at 2147483647 (`wrapInt`).  The two
readings agree on everything but the counter, and their counters agree up to
`wrapInt` (`containsInt_eq`, `mtfContainsInt_eq`).
-/

/-- Ways in which an execution can go wrong. -/
inductive Fault where
  /-- A member access through `nullptr`. -/
  | nullDeref
  /-- A member access through a pointer to a `Node` that is not allocated. -/
  | danglingDeref
  /-- The fuel of a loop ran out before the loop ended. -/
  | outOfFuel
  deriving DecidableEq

/-- The struct `Node` of `LinkedList.h`: an integer and the pointer to the next
node (`none` is `nullptr`). -/
structure Node where
  item : Int
  next : Option Nat
  deriving DecidableEq

/-- The free store: the `Node` allocated at each address, if any. -/
abbrev Store := Nat → Option Node

/-- Overwrite (or allocate) the cell at address `a`. -/
def Store.write (m : Store) (a : Nat) (nd : Node) : Store :=
  fun b => if b = a then some nd else m b

/-- The statement `delete p` for a pointer to address `a`. -/
def Store.free (m : Store) (a : Nat) : Store :=
  fun b => if b = a then none else m b

/-- The assignment `p->next = q`. -/
def Store.setNext (m : Store) (p : Option Nat) (q : Option Nat) : Except Fault Store :=
  match p with
  | none => .error .nullDeref
  | some a =>
    match m a with
    | none => .error .danglingDeref
    | some nd => .ok (m.write a { nd with next := q })

/-- The data members of class `LinkedList` (and of its subclass `MTFList`, which
adds none), together with the free store its pointers refer to. -/
structure LinkedList where
  store : Store
  traverseCount : Int
  currentSize : Int
  head : Option Nat

/-- Modelled from the spec: the value the constructor of the base class `IList`
gives the member `traverseCount`.  The header `IList.h`, which declares the
member and the base class, is not among the sources; the spec says that a list
is created with `traversalCounter = 0`. -/
def IList.initialTraverseCount : Int := 0

namespace LinkedList

/-- The constructor `LinkedList::LinkedList`, run when the free store is `m`:
the part of the base class first, then `currentSize = 0; head = nullptr;`. -/
def construct (m : Store) : LinkedList :=
  { store := m, traverseCount := IList.initialTraverseCount, currentSize := 0, head := none }

/-- The method `LinkedList::getCurrentSize`. -/
def getCurrentSize (s : LinkedList) : Int := s.currentSize

/-- The method `LinkedList::isEmpty`. -/
def isEmpty (s : LinkedList) : Bool :=
  match s.head with
  | none => true
  | some _ => false

/-- The method `LinkedList::add`.  The argument `alloc` is the outcome of
`new Node`: the address of the new cell, or `none` when `std::bad_alloc` is
thrown. -/
def add (s : LinkedList) (newEntry : Int) (alloc : Option Nat) : LinkedList × Bool :=
  match alloc with
  | some newNode =>
    let s1 := { s with store := s.store.write newNode { item := newEntry, next := s.head } }
    let s2 := { s1 with head := some newNode }
    let s3 := { s2 with currentSize := s2.currentSize + 1 }
    (s3, true)
  | none => (s, false)

/-- The `while` loop of `LinkedList::remove`, with the local variables
`currNode` and `prevNode` as arguments. -/
def removeLoop (anEntry : Int) :
    Nat → LinkedList → Option Nat → Option Nat → Except Fault (LinkedList × Bool)
  | 0, _, _, _ => .error .outOfFuel
  | _ + 1, s, none, _ => .ok (s, false)
  | fuel + 1, s, some currNode, prevNode =>
    match s.store currNode with
    | none => .error .danglingDeref
    | some nd =>
      if nd.item = anEntry then
        let nextNode := nd.next
        let s1 := { s with store := s.store.free currNode }
        let s2 := { s1 with currentSize := s1.currentSize - 1 }
        match s2.store.setNext prevNode nextNode with
        | .error e => .error e
        | .ok m => .ok ({ s2 with store := m }, true)
      else removeLoop anEntry fuel s nd.next (some currNode)

/-- The method `LinkedList::remove`. -/
def remove (fuel : Nat) (s : LinkedList) (anEntry : Int) : Except Fault (LinkedList × Bool) :=
  removeLoop anEntry fuel s s.head none

/-- The `while` loop of `LinkedList::clear`, with the local variable `currNode`
as argument. -/
def clearLoop : Nat → LinkedList → Option Nat → Except Fault LinkedList
  | 0, _, _ => .error .outOfFuel
  | _ + 1, s, none => .ok s
  | fuel + 1, s, some currNode =>
    match s.store currNode with
    | none => .error .danglingDeref
    | some nd =>
      let nextNode := nd.next
      let s1 := { s with store := s.store.free currNode }
      clearLoop fuel s1 nextNode

/-- The method `LinkedList::clear`. -/
def clear (fuel : Nat) (s : LinkedList) : Except Fault LinkedList :=
  match clearLoop fuel s s.head with
  | .error e => .error e
  | .ok s1 =>
    let s2 := { s1 with head := none }
    .ok { s2 with currentSize := 0 }

/-- The `while` loop of `LinkedList::contains`, with the local variable
`currNode` as argument and `traverseCount` read as an unbounded integer
(`containsLoopInt` keeps it a 32-bit `int`). -/
def containsLoop (anEntry : Int) :
    Nat → LinkedList → Option Nat → Except Fault (LinkedList × Bool)
  | 0, _, _ => .error .outOfFuel
  | _ + 1, s, none => .ok (s, false)
  | fuel + 1, s, some currNode =>
    let s1 := { s with traverseCount := s.traverseCount + 1 }
    match s1.store currNode with
    | none => .error .danglingDeref
    | some nd =>
      if nd.item = anEntry then .ok (s1, true)
      else containsLoop anEntry fuel s1 nd.next

/-- The method `LinkedList::contains`. -/
def contains (fuel : Nat) (s : LinkedList) (anEntry : Int) : Except Fault (LinkedList × Bool) :=
  containsLoop anEntry fuel s s.head

/-- The method `LinkedList::getTraverseCount`. -/
def getTraverseCount (s : LinkedList) : Int := s.traverseCount

/-- The method `LinkedList::resetTraverseCount`. -/
def resetTraverseCount (s : LinkedList) : LinkedList :=
  { s with traverseCount := 0 }

end LinkedList

namespace MTFList

/-- The `while` loop of `MTFList::contains`, with the local variables
`currNode` and `prevNode` as arguments and `traverseCount` read as an unbounded
integer (`containsLoopInt` keeps it a 32-bit `int`). -/
def containsLoop (anEntry : Int) :
    Nat → LinkedList → Option Nat → Option Nat → Except Fault (LinkedList × Bool)
  | 0, _, _, _ => .error .outOfFuel
  | _ + 1, s, none, _ => .ok (s, false)
  | fuel + 1, s, some currNode, prevNode =>
    let s1 := { s with traverseCount := s.traverseCount + 1 }
    match s1.store currNode with
    | none => .error .danglingDeref
    | some nd =>
      if nd.item = anEntry then
        match prevNode with
        | none => .ok (s1, true)
        | some prev =>
          match s1.store.setNext (some prev) nd.next with
          | .error e => .error e
          | .ok m1 =>
            match m1.setNext (some currNode) s1.head with
            | .error e => .error e
            | .ok m2 => .ok ({ s1 with store := m2, head := some currNode }, true)
      else containsLoop anEntry fuel s1 nd.next (some currNode)

/-- The method `MTFList::contains`. -/
def contains (fuel : Nat) (s : LinkedList) (anEntry : Int) : Except Fault (LinkedList × Bool) :=
  containsLoop anEntry fuel s s.head none

end MTFList

/-- The store holds, from pointer `p` on, a chain of nodes that ends in
`nullptr` and whose items are, front to back, the list `L`. -/
def Chain (m : Store) : Option Nat → List Int → Prop
  | p, [] => p = none
  | p, v :: L => ∃ a nx, p = some a ∧ m a = some ⟨v, nx⟩ ∧ Chain m nx L

/-- Whether the store holds the list `L` from pointer `p` on can be computed. -/
instance Chain.instDecidable (m : Store) : (p : Option Nat) → (L : List Int) → Decidable (Chain m p L)
  | none, [] => isTrue rfl
  | some _, [] => isFalse (by simp [Chain])
  | none, _ :: _ => isFalse (by simp [Chain])
  | some a, v :: L =>
    match h : m a with
    | none => isFalse (by simp [Chain, h])
    | some nd =>
      if hv : nd.item = v then
        match Chain.instDecidable m nd.next L with
        | isTrue hc => isTrue ⟨a, nd.next, rfl, by rw [h, ← hv], hc⟩
        | isFalse hc => isFalse (by
            rintro ⟨a', nx, ha, hm, hc'⟩
            cases ha
            rw [h] at hm
            cases hm
            exact hc hc')
      else isFalse (by
        rintro ⟨a', nx, ha, hm, -⟩
        cases ha
        rw [h] at hm
        cases hm
        exact hv rfl)

/-- The store holds a chain of nodes from pointer `p` up to (not including)
pointer `q`, whose cells are, in order, at the addresses and with the items
listed in `cs`. -/
def Seg (m : Store) : Option Nat → List (Nat × Int) → Option Nat → Prop
  | p, [], q => p = q
  | p, c :: cs, q => ∃ nx, p = some c.1 ∧ m c.1 = some ⟨c.2, nx⟩ ∧ Seg m nx cs q

/-- The pointer `prevNode` after the loop has walked over the cells `cs`. -/
def prevAfter : List (Nat × Int) → Option Nat → Option Nat
  | [], prev => prev
  | c :: cs, _ => prevAfter cs (some c.1)

/-- The state of the test programs after `add(1); add(2); add(3)` on an empty
list, the cells being allocated at the addresses 0, 1 and 2. -/
def sampleList : LinkedList :=
  ((((LinkedList.mk (fun _ => none) 0 0 none).add 1 (some 0)).1.add 2 (some 1)).1.add 3 (some 2)).1

/-- The calls `add(v1); ...; add(vn)` in a row on the state `s`, each value
paired with the address its `new Node` returned; the boolean tells whether all
of them returned true. -/
def addAll : LinkedList → List (Int × Nat) → LinkedList × Bool
  | s, [] => (s, true)
  | s, c :: rest =>
    let r := s.add c.1 (some c.2)
    let r' := addAll r.1 rest
    (r'.1, r.2 && r'.2)

/-- The states a list can be in: the state of a freshly constructed list, and
the states left by a call of one of the methods that returns.  A `new Node`
that succeeds returns an address that is not allocated. -/
inductive Reachable : LinkedList → Prop
  | construct (m : Store) : Reachable (LinkedList.construct m)
  | add (s : LinkedList) (v : Int) (a : Nat) :
      Reachable s → s.store a = none → Reachable (s.add v (some a)).1
  | addFailed (s : LinkedList) (v : Int) : Reachable s → Reachable (s.add v none).1
  | remove (s s' : LinkedList) (fuel : Nat) (v : Int) (b : Bool) :
      Reachable s → LinkedList.remove fuel s v = .ok (s', b) → Reachable s'
  | clear (s s' : LinkedList) (fuel : Nat) :
      Reachable s → LinkedList.clear fuel s = .ok s' → Reachable s'
  | contains (s s' : LinkedList) (fuel : Nat) (v : Int) (b : Bool) :
      Reachable s → LinkedList.contains fuel s v = .ok (s', b) → Reachable s'
  | mtfContains (s s' : LinkedList) (fuel : Nat) (v : Int) (b : Bool) :
      Reachable s → MTFList.contains fuel s v = .ok (s', b) → Reachable s'
  | resetTraverseCount (s : LinkedList) : Reachable s → Reachable s.resetTraverseCount

/-- The calls `contains(q1); ...; contains(qn)` in a row on a `LinkedList`, as
in the access loops of `main`, with the results of the calls in order. -/
def LinkedList.containsAll (fuel : Nat) :
    LinkedList → List Int → Except Fault (LinkedList × List Bool)
  | s, [] => .ok (s, [])
  | s, q :: qs =>
    match LinkedList.contains fuel s q with
    | .error e => .error e
    | .ok (s1, b) =>
      match LinkedList.containsAll fuel s1 qs with
      | .error e => .error e
      | .ok (s2, bs) => .ok (s2, b :: bs)

/-- The calls `contains(q1); ...; contains(qn)` in a row on an `MTFList`, as in
the access loops of `main`, with the results of the calls in order. -/
def MTFList.containsAll (fuel : Nat) :
    LinkedList → List Int → Except Fault (LinkedList × List Bool)
  | s, [] => .ok (s, [])
  | s, q :: qs =>
    match MTFList.contains fuel s q with
    | .error e => .error e
    | .ok (s1, b) =>
      match MTFList.containsAll fuel s1 qs with
      | .error e => .error e
      | .ok (s2, bs) => .ok (s2, b :: bs)

/-- The traversal counter and the results after a run of queries, when the run
returns. -/
def countAndResults (r : Except Fault (LinkedList × List Bool)) : Option (Int × List Bool) :=
  match r with
  | .error _ => none
  | .ok (s, bs) => some (s.traverseCount, bs)

/-- The value an `int` holds after the arithmetic result `x` is stored in it: 32
bits in two's complement, wrapping around. -/
def wrapInt (x : Int) : Int := (x + 2147483648) % 4294967296 - 2147483648

/-- The `while` loop of `LinkedList::contains` with `traverseCount` as the
32-bit `int` of the code. -/
def LinkedList.containsLoopInt (anEntry : Int) :
    Nat → LinkedList → Option Nat → Except Fault (LinkedList × Bool)
  | 0, _, _ => .error .outOfFuel
  | _ + 1, s, none => .ok (s, false)
  | fuel + 1, s, some currNode =>
    let s1 := { s with traverseCount := wrapInt (s.traverseCount + 1) }
    match s1.store currNode with
    | none => .error .danglingDeref
    | some nd =>
      if nd.item = anEntry then .ok (s1, true)
      else LinkedList.containsLoopInt anEntry fuel s1 nd.next

/-- The method `LinkedList::contains` with `traverseCount` as the 32-bit `int`
of the code. -/
def LinkedList.containsInt (fuel : Nat) (s : LinkedList) (anEntry : Int) :
    Except Fault (LinkedList × Bool) :=
  LinkedList.containsLoopInt anEntry fuel s s.head

/-- The `while` loop of `MTFList::contains` with `traverseCount` as the 32-bit
`int` of the code. -/
def MTFList.containsLoopInt (anEntry : Int) :
    Nat → LinkedList → Option Nat → Option Nat → Except Fault (LinkedList × Bool)
  | 0, _, _, _ => .error .outOfFuel
  | _ + 1, s, none, _ => .ok (s, false)
  | fuel + 1, s, some currNode, prevNode =>
    let s1 := { s with traverseCount := wrapInt (s.traverseCount + 1) }
    match s1.store currNode with
    | none => .error .danglingDeref
    | some nd =>
      if nd.item = anEntry then
        match prevNode with
        | none => .ok (s1, true)
        | some prev =>
          match s1.store.setNext (some prev) nd.next with
          | .error e => .error e
          | .ok m1 =>
            match m1.setNext (some currNode) s1.head with
            | .error e => .error e
            | .ok m2 => .ok ({ s1 with store := m2, head := some currNode }, true)
      else MTFList.containsLoopInt anEntry fuel s1 nd.next (some currNode)

/-- The method `MTFList::contains` with `traverseCount` as the 32-bit `int` of
the code. -/
def MTFList.containsInt (fuel : Nat) (s : LinkedList) (anEntry : Int) :
    Except Fault (LinkedList × Bool) :=
  MTFList.containsLoopInt anEntry fuel s s.head none

/-- The state `s` with its traversal counter stored in an `int`. -/
def wrapCounter (s : LinkedList) : LinkedList :=
  { s with traverseCount := wrapInt s.traverseCount }

/-- The result of a call with its traversal counter stored in an `int`. -/
def wrapResult (r : Except Fault (LinkedList × Bool)) : Except Fault (LinkedList × Bool) :=
  match r with
  | .error e => .error e
  | .ok (s, b) => .ok (wrapCounter s, b)

/-- The list 3, 2, 1 of `sampleList` after searches that left the traversal
counter at `t`; every `t` from 0 to 2147483647 is reached by `contains(3)`
calls, each of which visits one node. -/
def counterAt (t : Int) : LinkedList :=
  { sampleList with traverseCount := t }

/-- The call `contains(v)` made `n` times in a row on a `LinkedList`, with
`traverseCount` as the 32-bit `int` of the code. -/
def LinkedList.containsIntTimes (fuel : Nat) (v : Int) : Nat → LinkedList → Except Fault LinkedList
  | 0, s => .ok s
  | n + 1, s =>
    match LinkedList.containsInt fuel s v with
    | .error e => .error e
    | .ok (s1, _) => LinkedList.containsIntTimes fuel v n s1

/-! ## Chains and segments of the store -/

theorem seg_append (m : Store) (cs1 cs2 : List (Nat × Int)) (p q : Option Nat) :
    Seg m p (cs1 ++ cs2) q ↔ ∃ r, Seg m p cs1 r ∧ Seg m r cs2 q := by
  induction cs1 generalizing p with
  | nil => simp [Seg]
  | cons c cs ih =>
    constructor
    · rintro ⟨nx, hp, hm, h⟩
      obtain ⟨r, h1, h2⟩ := (ih nx).1 h
      exact ⟨r, ⟨nx, hp, hm, h1⟩, h2⟩
    · rintro ⟨r, ⟨nx, hp, hm, h1⟩, h2⟩
      exact ⟨nx, hp, hm, (ih nx).2 ⟨r, h1, h2⟩⟩

theorem chain_iff_seg (m : Store) (p : Option Nat) (L : List Int) :
    Chain m p L ↔ ∃ cs, Seg m p cs none ∧ cs.map Prod.snd = L := by
  induction L generalizing p with
  | nil =>
    constructor
    · intro h
      exact ⟨[], h, rfl⟩
    · rintro ⟨cs, h, hcs⟩
      have : cs = [] := by simpa using hcs
      subst this
      exact h
  | cons v L ih =>
    constructor
    · rintro ⟨a, nx, hp, hm, h⟩
      obtain ⟨cs, hs, hcs⟩ := (ih nx).1 h
      exact ⟨(a, v) :: cs, ⟨nx, hp, hm, hs⟩, by simp [hcs]⟩
    · rintro ⟨cs, h, hcs⟩
      cases cs with
      | nil => simp at hcs
      | cons c cs =>
        obtain ⟨nx, hp, hm, hs⟩ := h
        simp only [List.map_cons, List.cons.injEq] at hcs
        obtain ⟨hv, hL⟩ := hcs
        exact ⟨c.1, nx, hp, hv ▸ hm, (ih nx).2 ⟨cs, hs, hL⟩⟩

theorem seg_alloc (m : Store) (cs : List (Nat × Int)) (p q : Option Nat)
    (h : Seg m p cs q) (a : Nat) (ha : a ∈ cs.map Prod.fst) : m a ≠ none := by
  induction cs generalizing p with
  | nil => simp at ha
  | cons c cs ih =>
    obtain ⟨nx, _, hm, hs⟩ := h
    simp only [List.map_cons, List.mem_cons] at ha
    rcases ha with ha | ha
    · subst ha
      simp [hm]
    · exact ih nx hs ha

theorem seg_det (m : Store) (cs cs' : List (Nat × Int)) (p : Option Nat)
    (h : Seg m p cs none) (h' : Seg m p cs' none) : cs = cs' := by
  induction cs generalizing p cs' with
  | nil =>
    cases cs' with
    | nil => rfl
    | cons c cs' =>
      obtain ⟨nx, hp, _⟩ := h'
      simp only [Seg] at h
      simp [h] at hp
  | cons c cs ih =>
    obtain ⟨nx, hp, hm, hs⟩ := h
    cases cs' with
    | nil =>
      simp only [Seg] at h'
      simp [h'] at hp
    | cons c' cs' =>
      obtain ⟨nx', hp', hm', hs'⟩ := h'
      have hc : c.1 = c'.1 := by
        rw [hp] at hp'
        exact Option.some.inj hp'
      rw [← hc, hm] at hm'
      simp only [Option.some.injEq, Node.mk.injEq] at hm'
      obtain ⟨hv, hnx⟩ := hm'
      subst hnx
      rw [ih cs' nx hs hs']
      congr 1
      exact Prod.ext hc hv

theorem seg_nodup (m : Store) (cs : List (Nat × Int)) (p : Option Nat)
    (h : Seg m p cs none) : (cs.map Prod.fst).Nodup := by
  induction cs generalizing p with
  | nil => simp
  | cons c cs ih =>
    obtain ⟨nx, hp, hm, hs⟩ := h
    rw [List.map_cons, List.nodup_cons]
    refine ⟨?_, ih nx hs⟩
    intro hmem
    obtain ⟨d, hd, hdc⟩ := List.mem_map.1 hmem
    obtain ⟨u, w, huw⟩ := List.append_of_mem hd
    rw [huw, seg_append] at hs
    obtain ⟨r, hu, nx', hr, hm', hw⟩ := hs
    have hnx : nx' = nx := by
      rw [hdc, hm] at hm'
      simp only [Option.some.injEq, Node.mk.injEq] at hm'
      exact hm'.2.symm
    subst hnx
    have hall : Seg m nx' (u ++ d :: w) none :=
      (seg_append m u (d :: w) nx' none).2 ⟨r, hu, nx', hr, hm', hw⟩
    have hlen := congrArg List.length (seg_det m w (u ++ d :: w) nx' hw hall)
    simp at hlen
    omega

/-- A segment only depends on the cells it is made of. -/
theorem seg_congr (m m' : Store) (cs : List (Nat × Int)) (p q : Option Nat)
    (hm : ∀ a ∈ cs.map Prod.fst, m' a = m a) (h : Seg m p cs q) : Seg m' p cs q := by
  induction cs generalizing p with
  | nil => exact h
  | cons c cs ih =>
    obtain ⟨nx, hp, hc, hs⟩ := h
    refine ⟨nx, hp, ?_, ih nx (fun a ha => hm a ?_) hs⟩
    · rw [hm c.1 (by simp)]
      exact hc
    · simp only [List.map_cons, List.mem_cons]
      exact Or.inr ha

theorem prevAfter_snoc (cs : List (Nat × Int)) (c : Nat × Int) (prev : Option Nat) :
    prevAfter (cs ++ [c]) prev = some c.1 := by
  induction cs generalizing prev with
  | nil => rfl
  | cons d cs ih => exact ih (some d.1)

/-! ## List facts about the first occurrence of a value -/

theorem exists_first_occurrence (L : List Int) (v : Int) (hv : v ∈ L) :
    ∃ pre post, L = pre ++ v :: post ∧ v ∉ pre := by
  induction L with
  | nil => simp at hv
  | cons x L ih =>
    by_cases hx : x = v
    · exact ⟨[], L, by simp [hx], by simp⟩
    · rcases List.mem_cons.1 hv with hv | hv
      · exact absurd hv.symm hx
      · obtain ⟨pre, post, hL, hpre⟩ := ih hv
        refine ⟨x :: pre, post, by simp [hL], ?_⟩
        simp only [List.mem_cons, not_or]
        exact ⟨fun e => hx e.symm, hpre⟩

theorem erase_first_occurrence (pre post : List Int) (v : Int) (hpre : v ∉ pre) :
    (pre ++ v :: post).erase v = pre ++ post := by
  induction pre with
  | nil => simp
  | cons x pre ih =>
    simp only [List.mem_cons, not_or] at hpre
    rw [List.cons_append, List.erase_cons_tail (by simpa using fun e => hpre.1 e.symm), ih hpre.2]
    rfl

theorem indexOf_first_occurrence (pre post : List Int) (v : Int) (hpre : v ∉ pre) :
    (pre ++ v :: post).indexOf v = pre.length := by
  induction pre with
  | nil => simp
  | cons x pre ih =>
    simp only [List.mem_cons, not_or] at hpre
    rw [List.cons_append, List.indexOf_cons_ne _ (fun e => hpre.1 e.symm), ih hpre.2]
    rfl

/-- Splitting a chain at the first occurrence of `v`: the cells before it, the
cell holding it, and the chain after it. -/
theorem chain_split (m : Store) (p : Option Nat) (pre post : List Int) (v : Int)
    (h : Chain m p (pre ++ v :: post)) :
    ∃ cpre a nx cpost, Seg m p cpre (some a) ∧ m a = some ⟨v, nx⟩ ∧ Seg m nx cpost none ∧
      cpre.map Prod.snd = pre ∧ cpost.map Prod.snd = post ∧
      (cpre.map Prod.fst ++ a :: cpost.map Prod.fst).Nodup := by
  obtain ⟨cs, hs, hcs⟩ := (chain_iff_seg m p _).1 h
  obtain ⟨cpre, rest, hsplit, h1, h2⟩ := List.map_eq_append_iff.1 hcs
  cases rest with
  | nil => simp at h2
  | cons c cpost =>
    simp only [List.map_cons, List.cons.injEq] at h2
    have hnd := seg_nodup m cs p hs
    subst hsplit
    obtain ⟨r, hpre, nx, hr, hm, hpost⟩ := (seg_append m cpre (c :: cpost) p none).1 hs
    subst hr
    refine ⟨cpre, c.1, nx, cpost, hpre, ?_, hpost, h1, h2.2, ?_⟩
    · rw [← h2.1]; exact hm
    · simpa using hnd

/-! ## The loops walk over cells that do not hold the sought value -/

theorem containsLoop_walk (v : Int) (cs : List (Nat × Int)) (s : LinkedList)
    (p q : Option Nat) (fuel : Nat) (h : Seg s.store p cs q) (hne : ∀ c ∈ cs, c.2 ≠ v) :
    LinkedList.containsLoop v (fuel + cs.length) s p =
      LinkedList.containsLoop v fuel
        { s with traverseCount := s.traverseCount + cs.length } q := by
  induction cs generalizing s p with
  | nil =>
    simp only [Seg] at h
    subst h
    simp
  | cons c cs ih =>
    obtain ⟨nx, hp, hm, hs⟩ := h
    subst hp
    have hc : c.2 ≠ v := hne c (List.mem_cons_self _ _)
    rw [List.length_cons, ← Nat.add_assoc, LinkedList.containsLoop]
    simp only [hm, hc, if_false]
    rw [ih { s with traverseCount := s.traverseCount + 1 } nx hs
      (fun d hd => hne d (List.mem_cons_of_mem _ hd))]
    congr 2
    simp only [Nat.cast_add, Nat.cast_one]
    ring

theorem mtfContainsLoop_walk (v : Int) (cs : List (Nat × Int)) (s : LinkedList)
    (p q prev : Option Nat) (fuel : Nat) (h : Seg s.store p cs q) (hne : ∀ c ∈ cs, c.2 ≠ v) :
    MTFList.containsLoop v (fuel + cs.length) s p prev =
      MTFList.containsLoop v fuel
        { s with traverseCount := s.traverseCount + cs.length } q (prevAfter cs prev) := by
  induction cs generalizing s p prev with
  | nil =>
    simp only [Seg] at h
    subst h
    simp [prevAfter]
  | cons c cs ih =>
    obtain ⟨nx, hp, hm, hs⟩ := h
    subst hp
    have hc : c.2 ≠ v := hne c (List.mem_cons_self _ _)
    rw [List.length_cons, ← Nat.add_assoc, MTFList.containsLoop]
    simp only [hm, hc, if_false]
    rw [ih { s with traverseCount := s.traverseCount + 1 } nx (some c.1) hs
      (fun d hd => hne d (List.mem_cons_of_mem _ hd))]
    simp only [prevAfter]
    congr 2
    simp only [Nat.cast_add, Nat.cast_one]
    ring

theorem removeLoop_walk (v : Int) (cs : List (Nat × Int)) (s : LinkedList)
    (p q prev : Option Nat) (fuel : Nat) (h : Seg s.store p cs q) (hne : ∀ c ∈ cs, c.2 ≠ v) :
    LinkedList.removeLoop v (fuel + cs.length) s p prev =
      LinkedList.removeLoop v fuel s q (prevAfter cs prev) := by
  induction cs generalizing p prev with
  | nil =>
    simp only [Seg] at h
    subst h
    simp [prevAfter]
  | cons c cs ih =>
    obtain ⟨nx, hp, hm, hs⟩ := h
    subst hp
    have hc : c.2 ≠ v := hne c (List.mem_cons_self _ _)
    rw [List.length_cons, ← Nat.add_assoc, LinkedList.removeLoop]
    simp only [hm, hc, if_false]
    rw [ih nx (some c.1) hs (fun d hd => hne d (List.mem_cons_of_mem _ hd))]
    simp only [prevAfter]

/-- Unlinking the cell at `a`: when the store changes only at `a` and at its
predecessor `b`, whose `next` now holds the successor of `a`, the chain from
`p` lists the old cells without the one at `a`. -/
theorem seg_unlink (m m' : Store) (p nx : Option Nat) (cpre cpost : List (Nat × Int))
    (a : Nat) (b : Nat × Int)
    (hpre : Seg m p (cpre ++ [b]) (some a)) (hpost : Seg m nx cpost none)
    (hnd : ((cpre ++ [b]).map Prod.fst ++ a :: cpost.map Prod.fst).Nodup)
    (hb : m' b.1 = some ⟨b.2, nx⟩)
    (hframe : ∀ z, z ≠ a → z ≠ b.1 → m' z = m z) :
    Seg m' p ((cpre ++ [b]) ++ cpost) none := by
  obtain ⟨r, h1, nx', hr, _, _⟩ := (seg_append m cpre [b] p (some a)).1 hpre
  simp only [List.map_append, List.map_cons, List.map_nil, List.append_assoc,
    List.singleton_append] at hnd
  have hnd' := List.nodup_append.1 hnd
  have hnd2 := List.nodup_cons.1 hnd'.2.1
  have hnd3 := List.nodup_cons.1 hnd2.2
  have hdis := hnd'.2.2
  refine (seg_append m' (cpre ++ [b]) cpost p none).2 ⟨nx, ?_, ?_⟩
  · refine (seg_append m' cpre [b] p nx).2 ⟨r, ?_, nx, hr, hb, rfl⟩
    refine seg_congr m m' cpre p r (fun z hz => hframe z ?_ ?_) h1
    · rintro rfl
      exact hdis hz (by simp)
    · rintro rfl
      exact hdis hz (by simp)
  · refine seg_congr m m' cpost nx none (fun z hz => hframe z ?_ ?_) hpost
    · rintro rfl
      exact hnd3.1 hz
    · rintro rfl
      exact hnd2.1 (by simp [hz])

/-! ## What the three loops compute on a well-formed list -/

theorem contains_miss (s : LinkedList) (L : List Int) (v : Int) (fuel : Nat)
    (hL : Chain s.store s.head L) (hv : v ∉ L) (hfuel : L.length < fuel) :
    LinkedList.contains fuel s v =
      .ok ({ s with traverseCount := s.traverseCount + L.length }, false) := by
  obtain ⟨cs, hs, hcs⟩ := (chain_iff_seg _ _ _).1 hL
  have hlen : cs.length = L.length := by rw [← hcs, List.length_map]
  obtain ⟨k, rfl⟩ : ∃ k, fuel = (k + 1) + cs.length := ⟨fuel - 1 - cs.length, by omega⟩
  have hne : ∀ c ∈ cs, c.2 ≠ v := by
    intro c hc e
    exact hv (hcs ▸ e ▸ List.mem_map_of_mem Prod.snd hc)
  rw [LinkedList.contains, containsLoop_walk v cs s s.head none (k + 1) hs hne,
    LinkedList.containsLoop, hlen]

theorem contains_hit (s : LinkedList) (pre post : List Int) (v : Int) (fuel : Nat)
    (hL : Chain s.store s.head (pre ++ v :: post)) (hv : v ∉ pre)
    (hfuel : (pre ++ v :: post).length < fuel) :
    LinkedList.contains fuel s v =
      .ok ({ s with traverseCount := s.traverseCount + pre.length + 1 }, true) := by
  obtain ⟨cpre, a, nx, cpost, hpre, ha, -, hcpre, -, -⟩ := chain_split _ _ _ _ _ hL
  have hlen : cpre.length = pre.length := by rw [← hcpre, List.length_map]
  obtain ⟨k, rfl⟩ : ∃ k, fuel = (k + 1) + cpre.length :=
    ⟨fuel - 1 - cpre.length, by simp at hfuel; omega⟩
  have hne : ∀ c ∈ cpre, c.2 ≠ v := by
    intro c hc e
    exact hv (hcpre ▸ e ▸ List.mem_map_of_mem Prod.snd hc)
  rw [LinkedList.contains, containsLoop_walk v cpre s s.head (some a) (k + 1) hpre hne,
    LinkedList.containsLoop]
  simp only [ha, if_true, hlen]

theorem remove_miss (s : LinkedList) (L : List Int) (v : Int) (fuel : Nat)
    (hL : Chain s.store s.head L) (hv : v ∉ L) (hfuel : L.length < fuel) :
    LinkedList.remove fuel s v = .ok (s, false) := by
  obtain ⟨cs, hs, hcs⟩ := (chain_iff_seg _ _ _).1 hL
  have hlen : cs.length = L.length := by rw [← hcs, List.length_map]
  obtain ⟨k, rfl⟩ : ∃ k, fuel = (k + 1) + cs.length := ⟨fuel - 1 - cs.length, by omega⟩
  have hne : ∀ c ∈ cs, c.2 ≠ v := by
    intro c hc e
    exact hv (hcs ▸ e ▸ List.mem_map_of_mem Prod.snd hc)
  rw [LinkedList.remove, removeLoop_walk v cs s s.head none none (k + 1) hs hne,
    LinkedList.removeLoop]

theorem remove_first (s : LinkedList) (L : List Int) (v : Int) (fuel : Nat)
    (hL : Chain s.store s.head (v :: L)) :
    LinkedList.remove (fuel + 1) s v = .error .nullDeref := by
  obtain ⟨a, nx, hp, hm, -⟩ := hL
  rw [LinkedList.remove, hp, LinkedList.removeLoop]
  simp [hm, Store.setNext]

theorem remove_later (s : LinkedList) (pre post : List Int) (v : Int) (fuel : Nat)
    (hL : Chain s.store s.head (pre ++ v :: post)) (hv : v ∉ pre) (hpre : pre ≠ [])
    (hfuel : (pre ++ v :: post).length < fuel) :
    ∃ s', LinkedList.remove fuel s v = .ok (s', true) ∧
      Chain s'.store s'.head (pre ++ post) ∧
      s'.currentSize = s.currentSize - 1 ∧ s'.traverseCount = s.traverseCount := by
  obtain ⟨cpre, a, nx, cpost, hseg, ha, hpost, hcpre, hcpost, hnd⟩ := chain_split _ _ _ _ _ hL
  have hlen : cpre.length = pre.length := by rw [← hcpre, List.length_map]
  obtain ⟨k, rfl⟩ : ∃ k, fuel = (k + 1) + cpre.length :=
    ⟨fuel - 1 - cpre.length, by simp at hfuel; omega⟩
  have hne : ∀ c ∈ cpre, c.2 ≠ v := by
    intro c hc e
    exact hv (hcpre ▸ e ▸ List.mem_map_of_mem Prod.snd hc)
  rcases List.eq_nil_or_concat cpre with hnil | ⟨cs, b, hcs⟩
  · subst hnil
    exact absurd hcpre.symm hpre
  subst hcs
  rw [List.concat_eq_append] at hseg hnd hne hlen hcpre ⊢
  obtain ⟨r, -, nx', hr, hb, hnx'⟩ := (seg_append s.store cs [b] s.head (some a)).1 hseg
  simp only [Seg] at hnx'
  subst hnx'
  have hab : b.1 ≠ a := by
    intro e
    exact (List.nodup_append.1 hnd).2.2
      (show a ∈ List.map Prod.fst (cs ++ [b]) by simp [← e]) (by simp)
  rw [LinkedList.remove, removeLoop_walk v (cs ++ [b]) s s.head (some a) none (k + 1)
    hseg hne, prevAfter_snoc, LinkedList.removeLoop]
  simp only [ha, if_true, Store.setNext, Store.free, if_neg hab, hb]
  refine ⟨_, rfl, ?_, rfl, rfl⟩
  refine (chain_iff_seg _ _ _).2 ⟨(cs ++ [b]) ++ cpost, ?_, by rw [List.map_append, hcpre, hcpost]⟩
  refine seg_unlink s.store _ s.head nx cs cpost a b hseg hpost hnd ?_ ?_
  · simp [Store.write]
  · intro z hza hzb
    simp [Store.write, Store.free, hza, hzb]

theorem mtfContains_miss (s : LinkedList) (L : List Int) (v : Int) (fuel : Nat)
    (hL : Chain s.store s.head L) (hv : v ∉ L) (hfuel : L.length < fuel) :
    MTFList.contains fuel s v =
      .ok ({ s with traverseCount := s.traverseCount + L.length }, false) := by
  obtain ⟨cs, hs, hcs⟩ := (chain_iff_seg _ _ _).1 hL
  have hlen : cs.length = L.length := by rw [← hcs, List.length_map]
  obtain ⟨k, rfl⟩ : ∃ k, fuel = (k + 1) + cs.length := ⟨fuel - 1 - cs.length, by omega⟩
  have hne : ∀ c ∈ cs, c.2 ≠ v := by
    intro c hc e
    exact hv (hcs ▸ e ▸ List.mem_map_of_mem Prod.snd hc)
  rw [MTFList.contains, mtfContainsLoop_walk v cs s s.head none none (k + 1) hs hne,
    MTFList.containsLoop, hlen]

theorem mtfContains_hit (s : LinkedList) (pre post : List Int) (v : Int) (fuel : Nat)
    (hL : Chain s.store s.head (pre ++ v :: post)) (hv : v ∉ pre)
    (hfuel : (pre ++ v :: post).length < fuel) :
    ∃ s', MTFList.contains fuel s v = .ok (s', true) ∧
      Chain s'.store s'.head (v :: (pre ++ post)) ∧
      (pre = [] → s'.store = s.store ∧ s'.head = s.head) ∧
      s'.currentSize = s.currentSize ∧
      s'.traverseCount = s.traverseCount + pre.length + 1 := by
  obtain ⟨cpre, a, nx, cpost, hseg, ha, hpost, hcpre, hcpost, hnd⟩ := chain_split _ _ _ _ _ hL
  have hlen : cpre.length = pre.length := by rw [← hcpre, List.length_map]
  obtain ⟨k, rfl⟩ : ∃ k, fuel = (k + 1) + cpre.length :=
    ⟨fuel - 1 - cpre.length, by simp at hfuel; omega⟩
  have hne : ∀ c ∈ cpre, c.2 ≠ v := by
    intro c hc e
    exact hv (hcpre ▸ e ▸ List.mem_map_of_mem Prod.snd hc)
  rw [MTFList.contains, mtfContainsLoop_walk v cpre s s.head (some a) none (k + 1) hseg hne]
  rcases List.eq_nil_or_concat cpre with hnil | ⟨cs, b, hcs⟩
  · subst hnil
    simp only [List.map_nil] at hcpre
    subst hcpre
    simp only [Seg] at hseg
    rw [MTFList.containsLoop]
    simp only [ha, if_true, prevAfter]
    refine ⟨_, rfl, ?_, fun _ => ⟨rfl, rfl⟩, rfl, by simp⟩
    exact ⟨a, nx, hseg, ha, (chain_iff_seg _ _ _).2 ⟨cpost, hpost, hcpost⟩⟩
  subst hcs
  rw [List.concat_eq_append] at hseg hnd hne hlen hcpre ⊢
  obtain ⟨r, -, nx', hr, hb, hnx'⟩ := (seg_append s.store cs [b] s.head (some a)).1 hseg
  simp only [Seg] at hnx'
  subst hnx'
  have hab : a ≠ b.1 := by
    intro e
    exact (List.nodup_append.1 hnd).2.2
      (show a ∈ List.map Prod.fst (cs ++ [b]) by simp [e]) (by simp)
  rw [prevAfter_snoc, MTFList.containsLoop]
  simp only [ha, if_true, Store.setNext, hb, Store.write, if_neg hab]
  refine ⟨_, rfl, ?_, ?_, rfl, by simp [hlen]⟩
  · refine ⟨a, s.head, rfl, by simp [Store.write], ?_⟩
    refine (chain_iff_seg _ _ _).2 ⟨(cs ++ [b]) ++ cpost, ?_, by rw [List.map_append, hcpre, hcpost]⟩
    refine seg_unlink s.store _ s.head nx cs cpost a b hseg hpost hnd ?_ ?_
    · simp [Store.write, hab.symm]
    · intro z hza hzb
      simp [Store.write, hza, hzb]
  · intro hnil
    rw [← hcpre] at hnil
    simp at hnil

/-! ## The sample list -/

theorem sampleList_chain : Chain sampleList.store sampleList.head [3, 2, 1] := by
  decide

/-! ## Insertion -/

/-- C1: on a list whose elements are `L`, `add(v)` with a successful allocation
(a fresh address `a`) returns true, and afterwards the elements are `v :: L`,
the size is one more and the traversal counter is as before. -/
theorem add_prepends (s : LinkedList) (L : List Int) (v : Int) (a : Nat)
    (hL : Chain s.store s.head L) (hfresh : s.store a = none) :
    (s.add v (some a)).2 = true ∧
      Chain (s.add v (some a)).1.store (s.add v (some a)).1.head (v :: L) ∧
      (s.add v (some a)).1.currentSize = s.currentSize + 1 ∧
      (s.add v (some a)).1.traverseCount = s.traverseCount := by
  refine ⟨rfl, ⟨a, s.head, rfl, by simp [LinkedList.add, Store.write], ?_⟩, rfl, rfl⟩
  obtain ⟨cs, hs, hcs⟩ := (chain_iff_seg _ _ _).1 hL
  refine (chain_iff_seg _ _ _).2 ⟨cs, seg_congr s.store _ cs s.head none ?_ hs, hcs⟩
  intro z hz
  have hza : z ≠ a := by
    rintro rfl
    exact seg_alloc s.store cs s.head none hs z hz hfresh
  simp [LinkedList.add, Store.write, hza]

theorem add_prepends_witness :
    (sampleList.add 4 (some 3)).2 = true ∧
      Chain (sampleList.add 4 (some 3)).1.store (sampleList.add 4 (some 3)).1.head [4, 3, 2, 1] ∧
      (sampleList.add 4 (some 3)).1.currentSize = sampleList.currentSize + 1 ∧
      (sampleList.add 4 (some 3)).1.traverseCount = sampleList.traverseCount :=
  add_prepends sampleList [3, 2, 1] 4 3 sampleList_chain rfl

/-! ## Removal -/

/-- C2 (the code departs from it): on a non-empty list whose first element is
`v`, `remove(v)` writes through the null `prevNode` and faults, whatever the
fuel; it neither returns true nor updates `head`. -/
theorem remove_first_element_faults (s : LinkedList) (L : List Int) (v : Int) (fuel : Nat)
    (hL : Chain s.store s.head (v :: L)) :
    LinkedList.remove (fuel + 1) s v = .error .nullDeref :=
  remove_first s L v fuel hL

theorem remove_first_element_faults_witness :
    LinkedList.remove (3 + 1) sampleList 3 = .error .nullDeref :=
  remove_first_element_faults sampleList [2, 1] 3 3 sampleList_chain

/-- C3: when the first occurrence of `v` is not the first element (the list is
`pre ++ v :: post` with `pre` non-empty and free of `v`), `remove(v)` returns
true, the elements become `pre ++ post`, which is the list with its first `v`
erased, the size drops by one and the traversal counter is unchanged. -/
theorem remove_later_occurrence (s : LinkedList) (pre post : List Int) (v : Int) (fuel : Nat)
    (hL : Chain s.store s.head (pre ++ v :: post)) (hv : v ∉ pre) (hpre : pre ≠ [])
    (hfuel : (pre ++ v :: post).length < fuel) :
    ∃ s', LinkedList.remove fuel s v = .ok (s', true) ∧
      Chain s'.store s'.head (pre ++ post) ∧
      pre ++ post = (pre ++ v :: post).erase v ∧
      s'.currentSize = s.currentSize - 1 ∧ s'.traverseCount = s.traverseCount := by
  obtain ⟨s', h1, h2, h3, h4⟩ := remove_later s pre post v fuel hL hv hpre hfuel
  exact ⟨s', h1, h2, (erase_first_occurrence pre post v hv).symm, h3, h4⟩

theorem remove_later_occurrence_witness :
    ∃ s', LinkedList.remove 4 sampleList 2 = .ok (s', true) ∧
      Chain s'.store s'.head ([3] ++ [1]) ∧
      ([3] ++ [1] : List Int) = ([3] ++ 2 :: [1]).erase 2 ∧
      s'.currentSize = sampleList.currentSize - 1 ∧
      s'.traverseCount = sampleList.traverseCount :=
  remove_later_occurrence sampleList [3] [1] 2 4 sampleList_chain (by decide) (by decide)
    (by decide)

/-- C4: when `v` does not occur in the list (the empty list included),
`remove(v)` returns false and the whole state is as before: elements, size and
traversal counter. -/
theorem remove_absent (s : LinkedList) (L : List Int) (v : Int) (fuel : Nat)
    (hL : Chain s.store s.head L) (hv : v ∉ L) (hfuel : L.length < fuel) :
    LinkedList.remove fuel s v = .ok (s, false) :=
  remove_miss s L v fuel hL hv hfuel

theorem remove_absent_witness :
    LinkedList.remove 4 sampleList 99 = .ok (sampleList, false) :=
  remove_absent sampleList [3, 2, 1] 99 4 sampleList_chain (by decide) (by decide)

/-! ## Search in `LinkedList` -/

/-- C5: `LinkedList::contains(v)` returns, and its result is true exactly when
`v` occurs among the elements; on the empty list it is false. -/
theorem contains_iff_mem (s : LinkedList) (L : List Int) (v : Int) (fuel : Nat)
    (hL : Chain s.store s.head L) (hfuel : L.length < fuel) :
    ∃ s' b, LinkedList.contains fuel s v = .ok (s', b) ∧ (b = true ↔ v ∈ L) ∧
      (L = [] → b = false) := by
  by_cases hv : v ∈ L
  · obtain ⟨pre, post, rfl, hpre⟩ := exists_first_occurrence L v hv
    exact ⟨_, true, contains_hit s pre post v fuel hL hpre hfuel, by simp, by simp⟩
  · exact ⟨_, false, contains_miss s L v fuel hL hv hfuel, by simp [hv], by simp⟩

theorem contains_iff_mem_witness :
    ∃ s' b, LinkedList.contains 4 sampleList 2 = .ok (s', b) ∧ (b = true ↔ (2 : Int) ∈ [3, 2, 1]) ∧
      ([(3 : Int), 2, 1] = [] → b = false) :=
  contains_iff_mem sampleList [3, 2, 1] 2 4 sampleList_chain (by decide)

/-! ## Search in `MTFList` -/

/-- C7: when `v` occurs and its first occurrence splits the list as
`pre ++ v :: post` (`pre` free of `v`), `MTFList::contains(v)` returns true and
the elements become `v` followed by `pre ++ post`, the list with that
occurrence erased; when `pre` is empty, so that `v` is already first, neither
the store nor `head` changes. -/
theorem mtf_contains_moves_to_front (s : LinkedList) (pre post : List Int) (v : Int)
    (fuel : Nat) (hL : Chain s.store s.head (pre ++ v :: post)) (hv : v ∉ pre)
    (hfuel : (pre ++ v :: post).length < fuel) :
    ∃ s', MTFList.contains fuel s v = .ok (s', true) ∧
      Chain s'.store s'.head (v :: (pre ++ post)) ∧
      pre ++ post = (pre ++ v :: post).erase v ∧
      (pre = [] → s'.store = s.store ∧ s'.head = s.head) := by
  obtain ⟨s', h1, h2, h3, -, -⟩ := mtfContains_hit s pre post v fuel hL hv hfuel
  exact ⟨s', h1, h2, (erase_first_occurrence pre post v hv).symm, h3⟩

theorem mtf_contains_moves_to_front_witness :
    ∃ s', MTFList.contains 4 sampleList 1 = .ok (s', true) ∧
      Chain s'.store s'.head (1 :: ([3, 2] ++ [])) ∧
      ([3, 2] ++ [] : List Int) = ([3, 2] ++ 1 :: []).erase 1 ∧
      (([3, 2] : List Int) = [] → s'.store = sampleList.store ∧ s'.head = sampleList.head) :=
  mtf_contains_moves_to_front sampleList [3, 2] [] 1 4 sampleList_chain (by decide) (by decide)

/-- C10: started from the same state, `LinkedList::contains(v)` and
`MTFList::contains(v)` both return, with the same boolean, the same traversal
counter and the same size; the first leaves the elements as they are, the
second leaves a permutation of them. -/
theorem mtf_contains_agrees (s : LinkedList) (L : List Int) (v : Int) (fuel : Nat)
    (hL : Chain s.store s.head L) (hfuel : L.length < fuel) :
    ∃ s1 s2 b, LinkedList.contains fuel s v = .ok (s1, b) ∧
      MTFList.contains fuel s v = .ok (s2, b) ∧
      s1.traverseCount = s2.traverseCount ∧ s1.currentSize = s2.currentSize ∧
      Chain s1.store s1.head L ∧ ∃ L2, Chain s2.store s2.head L2 ∧ L2.Perm L := by
  by_cases hv : v ∈ L
  · obtain ⟨pre, post, rfl, hpre⟩ := exists_first_occurrence L v hv
    obtain ⟨s2, h2, hc2, -, hsz, ht⟩ := mtfContains_hit s pre post v fuel hL hpre hfuel
    exact ⟨_, s2, true, contains_hit s pre post v fuel hL hpre hfuel, h2, ht.symm,
      hsz.symm, hL, _, hc2, List.perm_middle.symm⟩
  · exact ⟨_, _, false, contains_miss s L v fuel hL hv hfuel,
      mtfContains_miss s L v fuel hL hv hfuel, rfl, rfl, hL, L, hL, List.Perm.refl L⟩

theorem mtf_contains_agrees_witness :
    ∃ s1 s2 b, LinkedList.contains 4 sampleList 1 = .ok (s1, b) ∧
      MTFList.contains 4 sampleList 1 = .ok (s2, b) ∧
      s1.traverseCount = s2.traverseCount ∧ s1.currentSize = s2.currentSize ∧
      Chain s1.store s1.head [3, 2, 1] ∧ ∃ L2, Chain s2.store s2.head L2 ∧ L2.Perm [3, 2, 1] :=
  mtf_contains_agrees sampleList [3, 2, 1] 1 4 sampleList_chain (by decide)

/-! ## More fuel does not change a result -/

theorem removeLoop_mono (v : Int) (fuel k : Nat) (s : LinkedList) (c p : Option Nat)
    (r : LinkedList × Bool) (h : LinkedList.removeLoop v fuel s c p = .ok r) :
    LinkedList.removeLoop v (fuel + k) s c p = .ok r := by
  induction fuel generalizing c p with
  | zero => simp [LinkedList.removeLoop] at h
  | succ n ih =>
    rw [Nat.add_right_comm]
    cases c with
    | none => simpa [LinkedList.removeLoop] using h
    | some a =>
      rw [LinkedList.removeLoop] at h ⊢
      cases hm : s.store a with
      | none => simp [hm] at h
      | some nd =>
        simp only [hm] at h ⊢
        by_cases hv : nd.item = v
        · simpa [hv] using h
        · simp only [hv, if_false] at h ⊢
          exact ih _ _ h

theorem containsLoop_mono (v : Int) (fuel k : Nat) (s : LinkedList) (c : Option Nat)
    (r : LinkedList × Bool) (h : LinkedList.containsLoop v fuel s c = .ok r) :
    LinkedList.containsLoop v (fuel + k) s c = .ok r := by
  induction fuel generalizing s c with
  | zero => simp [LinkedList.containsLoop] at h
  | succ n ih =>
    rw [Nat.add_right_comm]
    cases c with
    | none => simpa [LinkedList.containsLoop] using h
    | some a =>
      rw [LinkedList.containsLoop] at h ⊢
      cases hm : s.store a with
      | none => simp [hm] at h
      | some nd =>
        simp only [hm] at h ⊢
        by_cases hv : nd.item = v
        · simpa [hv] using h
        · simp only [hv, if_false] at h ⊢
          exact ih _ _ h

theorem mtfContainsLoop_mono (v : Int) (fuel k : Nat) (s : LinkedList) (c p : Option Nat)
    (r : LinkedList × Bool) (h : MTFList.containsLoop v fuel s c p = .ok r) :
    MTFList.containsLoop v (fuel + k) s c p = .ok r := by
  induction fuel generalizing s c p with
  | zero => simp [MTFList.containsLoop] at h
  | succ n ih =>
    rw [Nat.add_right_comm]
    cases c with
    | none => simpa [MTFList.containsLoop] using h
    | some a =>
      rw [MTFList.containsLoop] at h ⊢
      cases hm : s.store a with
      | none => simp [hm] at h
      | some nd =>
        simp only [hm] at h ⊢
        by_cases hv : nd.item = v
        · simpa [hv] using h
        · simp only [hv, if_false] at h ⊢
          exact ih _ _ _ h

theorem clearLoop_mono (fuel k : Nat) (s : LinkedList) (c : Option Nat)
    (r : LinkedList) (h : LinkedList.clearLoop fuel s c = .ok r) :
    LinkedList.clearLoop (fuel + k) s c = .ok r := by
  induction fuel generalizing s c with
  | zero => simp [LinkedList.clearLoop] at h
  | succ n ih =>
    rw [Nat.add_right_comm]
    cases c with
    | none => simpa [LinkedList.clearLoop] using h
    | some a =>
      rw [LinkedList.clearLoop] at h ⊢
      cases hm : s.store a with
      | none => simp [hm] at h
      | some nd =>
        simp only [hm] at h ⊢
        exact ih _ _ h

/-! ## Insertion and clearing on a well-formed list -/

theorem chain_add (s : LinkedList) (L : List Int) (v : Int) (a : Nat)
    (hL : Chain s.store s.head L) (hfresh : s.store a = none) :
    Chain (s.add v (some a)).1.store (s.add v (some a)).1.head (v :: L) := by
  refine ⟨a, s.head, rfl, by simp [LinkedList.add, Store.write], ?_⟩
  obtain ⟨cs, hs, hcs⟩ := (chain_iff_seg _ _ _).1 hL
  refine (chain_iff_seg _ _ _).2 ⟨cs, seg_congr s.store _ cs s.head none ?_ hs, hcs⟩
  intro z hz
  have hza : z ≠ a := by
    rintro rfl
    exact seg_alloc s.store cs s.head none hs z hz hfresh
  simp [LinkedList.add, Store.write, hza]

/-- The loop of `clear` frees the cells of the chain it walks over and touches
nothing else. -/
theorem clearLoop_spec (cs : List (Nat × Int)) (s : LinkedList) (p : Option Nat) (k : Nat)
    (h : Seg s.store p cs none) :
    ∃ s', LinkedList.clearLoop (k + 1 + cs.length) s p = .ok s' ∧
      s'.head = s.head ∧ s'.currentSize = s.currentSize ∧
      s'.traverseCount = s.traverseCount ∧
      (∀ a ∈ cs.map Prod.fst, s'.store a = none) ∧
      (∀ a, a ∉ cs.map Prod.fst → s'.store a = s.store a) := by
  induction cs generalizing s p with
  | nil =>
    simp only [Seg] at h
    subst h
    exact ⟨s, by simp [LinkedList.clearLoop], rfl, rfl, rfl, by simp, fun _ _ => rfl⟩
  | cons c cs ih =>
    have hnd := seg_nodup s.store (c :: cs) p h
    obtain ⟨nx, hp, hm, hs⟩ := h
    subst hp
    rw [List.map_cons, List.nodup_cons] at hnd
    have hs1 : Seg (s.store.free c.1) nx cs none := by
      refine seg_congr s.store _ cs nx none (fun z hz => ?_) hs
      have hz1 : z ≠ c.1 := by
        rintro rfl
        exact hnd.1 hz
      simp [Store.free, hz1]
    obtain ⟨s', h1, h2, h3, h4, h5, h6⟩ := ih { s with store := s.store.free c.1 } nx hs1
    refine ⟨s', ?_, h2, h3, h4, ?_, ?_⟩
    · rw [List.length_cons, ← Nat.add_assoc, LinkedList.clearLoop]
      simp only [hm]
      exact h1
    · intro a ha
      rcases List.mem_cons.1 ha with ha | ha
      · subst ha
        rw [h6 _ hnd.1]
        simp [Store.free]
      · exact h5 a ha
    · intro a ha
      simp only [List.map_cons, List.mem_cons, not_or] at ha
      rw [h6 a ha.2]
      simp [Store.free, ha.1]

theorem clear_spec (s : LinkedList) (L : List Int) (fuel : Nat)
    (hL : Chain s.store s.head L) (hfuel : L.length < fuel) :
    ∃ s', LinkedList.clear fuel s = .ok s' ∧ s'.head = none ∧ s'.currentSize = 0 ∧
      s'.traverseCount = s.traverseCount := by
  obtain ⟨cs, hs, hcs⟩ := (chain_iff_seg _ _ _).1 hL
  have hlen : cs.length = L.length := by rw [← hcs, List.length_map]
  obtain ⟨k, rfl⟩ : ∃ k, fuel = k + 1 + cs.length := ⟨fuel - 1 - cs.length, by omega⟩
  obtain ⟨s1, h1, -, -, h4, -, -⟩ := clearLoop_spec cs s s.head k hs
  exact ⟨{ s1 with head := none, currentSize := 0 }, by rw [LinkedList.clear, h1], rfl, rfl, h4⟩

theorem clear_of_cleared (s : LinkedList) (fuel : Nat) (hhead : s.head = none)
    (hsize : s.currentSize = 0) : LinkedList.clear (fuel + 1) s = .ok s := by
  cases s with
  | mk store tc size head =>
    simp only at hhead hsize
    subst hhead hsize
    rfl

/-! ## Every call that returns keeps the list well formed -/

theorem remove_keeps (s s' : LinkedList) (L : List Int) (v : Int) (fuel : Nat) (b : Bool)
    (hL : Chain s.store s.head L) (hsize : s.currentSize = L.length)
    (h : LinkedList.remove fuel s v = .ok (s', b)) :
    ∃ L', Chain s'.store s'.head L' ∧ s'.currentSize = L'.length := by
  have hF : LinkedList.remove (fuel + L.length + 1) s v = .ok (s', b) :=
    removeLoop_mono v fuel (L.length + 1) s s.head none (s', b) h
  by_cases hv : v ∈ L
  · obtain ⟨pre, post, rfl, hpre⟩ := exists_first_occurrence L v hv
    rcases List.eq_nil_or_concat pre with hnil | ⟨_, _, hcons⟩
    · subst hnil
      rw [remove_first s post v _ hL] at hF
      cases hF
    · have hne : pre ≠ [] := by
        rw [hcons]
        simp
      obtain ⟨s'', h1, h2, h3, -⟩ :=
        remove_later s pre post v (fuel + (pre ++ v :: post).length + 1) hL hpre hne (by omega)
      rw [h1] at hF
      cases hF
      refine ⟨pre ++ post, h2, ?_⟩
      rw [h3, hsize]
      simp only [List.length_append, List.length_cons, Nat.cast_add, Nat.cast_one]
      ring
  · rw [remove_miss s L v (fuel + L.length + 1) hL hv (by omega)] at hF
    cases hF
    exact ⟨L, hL, hsize⟩

theorem clear_keeps (s s' : LinkedList) (L : List Int) (fuel : Nat)
    (hL : Chain s.store s.head L) (h : LinkedList.clear fuel s = .ok s') :
    ∃ L', Chain s'.store s'.head L' ∧ s'.currentSize = L'.length := by
  obtain ⟨s'', h1, h2, h3, -⟩ := clear_spec s L (fuel + (L.length + 1)) hL (by omega)
  have hF : LinkedList.clear (fuel + (L.length + 1)) s = .ok s' := by
    rw [LinkedList.clear] at h ⊢
    cases hc : LinkedList.clearLoop fuel s s.head with
    | error e => simp [hc] at h
    | ok s1 =>
      rw [clearLoop_mono fuel (L.length + 1) s s.head s1 hc]
      simpa [hc] using h
  rw [h1] at hF
  cases hF
  exact ⟨[], h2, by simp [h3]⟩

theorem contains_keeps (s s' : LinkedList) (L : List Int) (v : Int) (fuel : Nat) (b : Bool)
    (hL : Chain s.store s.head L) (hsize : s.currentSize = L.length)
    (h : LinkedList.contains fuel s v = .ok (s', b)) :
    ∃ L', Chain s'.store s'.head L' ∧ s'.currentSize = L'.length := by
  have hF : LinkedList.contains (fuel + (L.length + 1)) s v = .ok (s', b) :=
    containsLoop_mono v fuel (L.length + 1) s s.head (s', b) h
  by_cases hv : v ∈ L
  · obtain ⟨pre, post, rfl, hpre⟩ := exists_first_occurrence L v hv
    rw [contains_hit s pre post v _ hL hpre (by omega)] at hF
    cases hF
    exact ⟨_, hL, hsize⟩
  · rw [contains_miss s L v _ hL hv (by omega)] at hF
    cases hF
    exact ⟨L, hL, hsize⟩

theorem mtfContains_keeps (s s' : LinkedList) (L : List Int) (v : Int) (fuel : Nat) (b : Bool)
    (hL : Chain s.store s.head L) (hsize : s.currentSize = L.length)
    (h : MTFList.contains fuel s v = .ok (s', b)) :
    ∃ L', Chain s'.store s'.head L' ∧ s'.currentSize = L'.length := by
  have hF : MTFList.contains (fuel + (L.length + 1)) s v = .ok (s', b) :=
    mtfContainsLoop_mono v fuel (L.length + 1) s s.head none (s', b) h
  by_cases hv : v ∈ L
  · obtain ⟨pre, post, rfl, hpre⟩ := exists_first_occurrence L v hv
    obtain ⟨s'', h1, h2, -, h3, -⟩ := mtfContains_hit s pre post v _ hL hpre
      (show (pre ++ v :: post).length < fuel + ((pre ++ v :: post).length + 1) by omega)
    rw [h1] at hF
    cases hF
    refine ⟨_, h2, ?_⟩
    rw [h3, hsize]
    simp only [List.length_append, List.length_cons, Nat.cast_add, Nat.cast_one]
    ring
  · rw [mtfContains_miss s L v _ hL hv (by omega)] at hF
    cases hF
    exact ⟨L, hL, hsize⟩

/-- In every reachable state the nodes that can be reached from `head` form a
list, and `currentSize` is its length. -/
theorem reachable_counted (s : LinkedList) (h : Reachable s) :
    ∃ L, Chain s.store s.head L ∧ s.currentSize = L.length := by
  induction h with
  | construct m => exact ⟨[], rfl, rfl⟩
  | add s v a _ hfresh ih =>
    obtain ⟨L, hL, hsize⟩ := ih
    refine ⟨v :: L, chain_add s L v a hL hfresh, ?_⟩
    show s.currentSize + 1 = _
    rw [hsize]
    simp
  | addFailed s v _ ih => exact ih
  | remove s s' fuel v b _ hr ih =>
    obtain ⟨L, hL, hsize⟩ := ih
    exact remove_keeps s s' L v fuel b hL hsize hr
  | clear s s' fuel _ hr ih =>
    obtain ⟨L, hL, -⟩ := ih
    exact clear_keeps s s' L fuel hL hr
  | contains s s' fuel v b _ hr ih =>
    obtain ⟨L, hL, hsize⟩ := ih
    exact contains_keeps s s' L v fuel b hL hsize hr
  | mtfContains s s' fuel v b _ hr ih =>
    obtain ⟨L, hL, hsize⟩ := ih
    exact mtfContains_keeps s s' L v fuel b hL hsize hr
  | resetTraverseCount s _ ih => exact ih

theorem sampleList_reachable : Reachable sampleList :=
  Reachable.add _ 3 2
    (Reachable.add _ 2 1
      (Reachable.add _ 1 0 (Reachable.construct (fun _ => none)) rfl) rfl) rfl

theorem chain_unique (m : Store) (p : Option Nat) (L L' : List Int)
    (h : Chain m p L) (h' : Chain m p L') : L' = L := by
  obtain ⟨cs, hs, hcs⟩ := (chain_iff_seg _ _ _).1 h
  obtain ⟨cs', hs', hcs'⟩ := (chain_iff_seg _ _ _).1 h'
  rw [← hcs, ← hcs', seg_det m cs cs' p hs hs']

theorem addAll_spec (calls : List (Int × Nat)) (s : LinkedList) (L : List Int)
    (hL : Chain s.store s.head L) (hnd : (calls.map Prod.snd).Nodup)
    (hfresh : ∀ c ∈ calls, s.store c.2 = none) :
    (addAll s calls).2 = true ∧
      Chain (addAll s calls).1.store (addAll s calls).1.head ((calls.map Prod.fst).reverse ++ L) ∧
      (addAll s calls).1.currentSize = s.currentSize + calls.length ∧
      (addAll s calls).1.traverseCount = s.traverseCount := by
  induction calls generalizing s L with
  | nil => exact ⟨rfl, by simpa using hL, by simp [addAll], rfl⟩
  | cons c rest ih =>
    rw [List.map_cons, List.nodup_cons] at hnd
    have hc : s.store c.2 = none := hfresh c (List.mem_cons_self _ _)
    have hfresh1 : ∀ d ∈ rest, (s.add c.1 (some c.2)).1.store d.2 = none := by
      intro d hd
      have hdc : d.2 ≠ c.2 := by
        intro e
        exact hnd.1 (e ▸ List.mem_map_of_mem Prod.snd hd)
      simp only [LinkedList.add, Store.write, if_neg hdc]
      exact hfresh d (List.mem_cons_of_mem _ hd)
    obtain ⟨h1, h2, h3, h4⟩ :=
      ih (s.add c.1 (some c.2)).1 (c.1 :: L) (chain_add s L c.1 c.2 hL hc) hnd.2 hfresh1
    refine ⟨?_, ?_, ?_, ?_⟩
    · simp only [addAll, h1]
      rfl
    · simpa [addAll] using h2
    · simp only [addAll, h3, List.length_cons, Nat.cast_add, Nat.cast_one]
      simp only [LinkedList.add]
      ring
    · simp only [addAll, h4]
      rfl

/-! ## Invariants of the reachable states -/

/-- C11: in every state reachable from a freshly constructed list by calls of
`add`, `remove`, `clear`, the two `contains` and `resetTraverseCount` that
return, the nodes reachable from `head` form exactly one list, and
`getCurrentSize()` is its length. -/
theorem size_counts_reachable_nodes (s : LinkedList) (h : Reachable s) :
    ∃ L : List Int, Chain s.store s.head L ∧ s.getCurrentSize = L.length ∧
      ∀ L', Chain s.store s.head L' → L' = L := by
  obtain ⟨L, hL, hsize⟩ := reachable_counted s h
  exact ⟨L, hL, hsize, fun L' hL' => chain_unique s.store s.head L L' hL hL'⟩

theorem size_counts_reachable_nodes_witness :
    ∃ L : List Int, Chain sampleList.store sampleList.head L ∧
      sampleList.getCurrentSize = L.length ∧
      ∀ L', Chain sampleList.store sampleList.head L' → L' = L :=
  size_counts_reachable_nodes sampleList sampleList_reachable

/-- C12: in every reachable state `isEmpty()` returns true exactly when
`getCurrentSize()` returns 0. -/
theorem isEmpty_iff_size_zero (s : LinkedList) (h : Reachable s) :
    s.isEmpty = true ↔ s.getCurrentSize = 0 := by
  obtain ⟨L, hL, hsize⟩ := reachable_counted s h
  cases L with
  | nil =>
    have hhead : s.head = none := hL
    simp [LinkedList.isEmpty, LinkedList.getCurrentSize, hhead, hsize]
  | cons v L =>
    obtain ⟨a, nx, hhead, -, -⟩ := hL
    simp only [LinkedList.isEmpty, LinkedList.getCurrentSize, hhead, hsize, List.length_cons]
    constructor
    · intro hf
      cases hf
    · intro hz
      exfalso
      have : (0 : Int) ≤ (L.length : Int) := Int.ofNat_nonneg _
      push_cast at hz
      omega

theorem isEmpty_iff_size_zero_witness :
    sampleList.isEmpty = true ↔ sampleList.getCurrentSize = 0 :=
  isEmpty_iff_size_zero sampleList sampleList_reachable

/-- C13: calling `add(v1); ...; add(vn)` on a freshly constructed list, every
allocation succeeding with a fresh address, returns true each time and leaves
size `n` and the elements in the order `vn, ..., v1`. -/
theorem add_sequence_reverses (m : Store) (calls : List (Int × Nat))
    (hnd : (calls.map Prod.snd).Nodup) (hfresh : ∀ c ∈ calls, m c.2 = none) :
    (addAll (LinkedList.construct m) calls).2 = true ∧
      (addAll (LinkedList.construct m) calls).1.getCurrentSize = calls.length ∧
      Chain (addAll (LinkedList.construct m) calls).1.store
        (addAll (LinkedList.construct m) calls).1.head (calls.map Prod.fst).reverse := by
  obtain ⟨h1, h2, h3, -⟩ := addAll_spec calls (LinkedList.construct m) [] rfl hnd hfresh
  refine ⟨h1, ?_, by simpa using h2⟩
  rw [LinkedList.getCurrentSize, h3]
  simp [LinkedList.construct]

theorem add_sequence_reverses_witness :
    (addAll (LinkedList.construct (fun _ => none)) [(43, 0), (9, 1), (99, 2)]).2 = true ∧
      (addAll (LinkedList.construct (fun _ => none)) [(43, 0), (9, 1), (99, 2)]).1.getCurrentSize
        = 3 ∧
      Chain (addAll (LinkedList.construct (fun _ => none)) [(43, 0), (9, 1), (99, 2)]).1.store
        (addAll (LinkedList.construct (fun _ => none)) [(43, 0), (9, 1), (99, 2)]).1.head
        [99, 9, 43] :=
  add_sequence_reverses (fun _ => none) [(43, 0), (9, 1), (99, 2)] (by decide)
    (fun _ _ => rfl)

/-! ## Clearing -/

/-- C14: on every list, empty or populated, `clear()` returns and leaves
`head` null, no elements, size 0 and `isEmpty()` true, with the traversal
counter as before. -/
theorem clear_empties (s : LinkedList) (L : List Int) (fuel : Nat)
    (hL : Chain s.store s.head L) (hfuel : L.length < fuel) :
    ∃ s', LinkedList.clear fuel s = .ok s' ∧ s'.head = none ∧
      Chain s'.store s'.head [] ∧ s'.getCurrentSize = 0 ∧ s'.isEmpty = true ∧
      s'.getTraverseCount = s.getTraverseCount := by
  obtain ⟨s', h1, h2, h3, h4⟩ := clear_spec s L fuel hL hfuel
  exact ⟨s', h1, h2, h2, h3, by simp [LinkedList.isEmpty, h2], h4⟩

theorem clear_empties_witness :
    ∃ s', LinkedList.clear 4 sampleList = .ok s' ∧ s'.head = none ∧
      Chain s'.store s'.head [] ∧ s'.getCurrentSize = 0 ∧ s'.isEmpty = true ∧
      s'.getTraverseCount = sampleList.getTraverseCount :=
  clear_empties sampleList [3, 2, 1] 4 sampleList_chain (by decide)

/-- C15: `clear()` is idempotent: the state it leaves is left unchanged, in
every field, by a second `clear()`; and on a list that is already empty, with
size 0, the first `clear()` changes nothing either. -/
theorem clear_idempotent (s : LinkedList) (L : List Int) (fuel : Nat)
    (hL : Chain s.store s.head L) (hfuel : L.length < fuel) :
    (∃ s', LinkedList.clear fuel s = .ok s' ∧ LinkedList.clear fuel s' = .ok s') ∧
      (L = [] → s.currentSize = 0 → LinkedList.clear fuel s = .ok s) := by
  obtain ⟨k, rfl⟩ : ∃ k, fuel = k + 1 := ⟨fuel - 1, by omega⟩
  obtain ⟨s', h1, h2, h3, -⟩ := clear_spec s L (k + 1) hL hfuel
  refine ⟨⟨s', h1, clear_of_cleared s' k h2 h3⟩, ?_⟩
  intro hnil hsize
  subst hnil
  exact clear_of_cleared s k hL hsize

theorem clear_idempotent_witness :
    (∃ s', LinkedList.clear 4 sampleList = .ok s' ∧ LinkedList.clear 4 s' = .ok s') ∧
      (([3, 2, 1] : List Int) = [] → sampleList.currentSize = 0 →
        LinkedList.clear 4 sampleList = .ok sampleList) :=
  clear_idempotent sampleList [3, 2, 1] 4 sampleList_chain (by decide)

/-! ## Removal followed by a search -/

/-- C16 (the code departs from it when `v` is the first element): on a list
`pre ++ v :: post` in which `v` occurs once, `remove(v)` faults on the null
`prevNode` when `pre` is empty; when `pre` is not empty it returns true, the
size drops by one, and a following `contains(v)` returns false after adding the
new size to the traversal counter. -/
theorem remove_single_occurrence (s : LinkedList) (pre post : List Int) (v : Int) (fuel : Nat)
    (hL : Chain s.store s.head (pre ++ v :: post)) (hpre : v ∉ pre) (hpost : v ∉ post)
    (hsize : s.currentSize = (pre ++ v :: post).length)
    (hfuel : (pre ++ v :: post).length < fuel) :
    (pre = [] → LinkedList.remove fuel s v = .error .nullDeref) ∧
      (pre ≠ [] → ∃ s1 s2, LinkedList.remove fuel s v = .ok (s1, true) ∧
        s1.getCurrentSize = s.getCurrentSize - 1 ∧
        LinkedList.contains fuel s1 v = .ok (s2, false) ∧
        s2.getTraverseCount = s1.getTraverseCount + s1.getCurrentSize) := by
  constructor
  · intro hnil
    subst hnil
    obtain ⟨k, rfl⟩ : ∃ k, fuel = k + 1 := ⟨fuel - 1, by omega⟩
    exact remove_first s post v k hL
  · intro hne
    obtain ⟨s1, h1, h2, h3, -⟩ := remove_later s pre post v fuel hL hpre hne hfuel
    have hv : v ∉ pre ++ post := by
      simp only [List.mem_append, not_or]
      exact ⟨hpre, hpost⟩
    have hfuel1 : (pre ++ post).length < fuel := by
      simp only [List.length_append, List.length_cons] at hfuel ⊢
      omega
    refine ⟨s1, _, h1, h3, contains_miss s1 (pre ++ post) v fuel h2 hv hfuel1, ?_⟩
    show s1.traverseCount + ((pre ++ post).length : Int) = s1.traverseCount + s1.currentSize
    rw [h3, hsize]
    simp only [List.length_append, List.length_cons, Nat.cast_add, Nat.cast_one]
    ring

theorem remove_single_occurrence_witness :
    LinkedList.remove 4 sampleList 3 = .error .nullDeref ∧
      ∃ s1 s2, LinkedList.remove 4 sampleList 1 = .ok (s1, true) ∧
        s1.getCurrentSize = sampleList.getCurrentSize - 1 ∧
        LinkedList.contains 4 s1 1 = .ok (s2, false) ∧
        s2.getTraverseCount = s1.getTraverseCount + s1.getCurrentSize :=
  ⟨(remove_single_occurrence sampleList [] [2, 1] 3 4 sampleList_chain (by decide) (by decide)
      rfl (by decide)).1 rfl,
    (remove_single_occurrence sampleList [3, 2] [] 1 4 sampleList_chain (by decide) (by decide)
      rfl (by decide)).2 (by decide)⟩

/-! ## Insertion followed by a search -/

/-- C17: after a successful `add(v)`, both `LinkedList::contains(v)` and
`MTFList::contains(v)` return true and leave the size as `add` left it. -/
theorem add_then_contains (s : LinkedList) (L : List Int) (v : Int) (a fuel : Nat)
    (hL : Chain s.store s.head L) (hfresh : s.store a = none) (hfuel : L.length + 1 < fuel) :
    (s.add v (some a)).2 = true ∧
      ∃ s1 s2, LinkedList.contains fuel (s.add v (some a)).1 v = .ok (s1, true) ∧
        s1.getCurrentSize = (s.add v (some a)).1.getCurrentSize ∧
        MTFList.contains fuel (s.add v (some a)).1 v = .ok (s2, true) ∧
        s2.getCurrentSize = (s.add v (some a)).1.getCurrentSize := by
  have hc : Chain (s.add v (some a)).1.store (s.add v (some a)).1.head ([] ++ v :: L) :=
    chain_add s L v a hL hfresh
  have hf : ([] ++ v :: L).length < fuel := by
    simp only [List.nil_append, List.length_cons]
    exact hfuel
  obtain ⟨s2, h2, -, -, hsz, -⟩ := mtfContains_hit _ [] L v fuel hc (by simp) hf
  exact ⟨rfl, _, s2, contains_hit _ [] L v fuel hc (by simp) hf, rfl, h2, hsz⟩

theorem add_then_contains_witness :
    (sampleList.add 7 (some 3)).2 = true ∧
      ∃ s1 s2, LinkedList.contains 5 (sampleList.add 7 (some 3)).1 7 = .ok (s1, true) ∧
        s1.getCurrentSize = (sampleList.add 7 (some 3)).1.getCurrentSize ∧
        MTFList.contains 5 (sampleList.add 7 (some 3)).1 7 = .ok (s2, true) ∧
        s2.getCurrentSize = (sampleList.add 7 (some 3)).1.getCurrentSize :=
  add_then_contains sampleList [3, 2, 1] 7 3 5 sampleList_chain rfl (by decide)

/-! ## Construction and the counter accessors -/

/-- C19: a freshly constructed `LinkedList` (an `MTFList` runs the same
constructor) has a null `head` and no elements, `getCurrentSize()` is 0,
`isEmpty()` is true and `getTraverseCount()` is 0. -/
theorem construct_is_empty (m : Store) :
    (LinkedList.construct m).head = none ∧
      Chain (LinkedList.construct m).store (LinkedList.construct m).head [] ∧
      (LinkedList.construct m).getCurrentSize = 0 ∧
      (LinkedList.construct m).isEmpty = true ∧
      (LinkedList.construct m).getTraverseCount = 0 :=
  ⟨rfl, rfl, rfl, rfl, rfl⟩

/-- C20: `resetTraverseCount()` sets the traversal counter to 0 and leaves the
store, `head` and the size as they are; `getTraverseCount()` returns the
counter, and being a function of the state alone it changes no field. -/
theorem reset_traverse_count (s : LinkedList) :
    s.resetTraverseCount.getTraverseCount = 0 ∧
      s.resetTraverseCount.store = s.store ∧ s.resetTraverseCount.head = s.head ∧
      s.resetTraverseCount.currentSize = s.currentSize ∧
      s.getTraverseCount = s.traverseCount :=
  ⟨rfl, rfl, rfl, rfl, rfl⟩

/-! ## Runs of queries -/

theorem contains_result (s : LinkedList) (L : List Int) (v : Int) (fuel : Nat)
    (hL : Chain s.store s.head L) (hfuel : L.length < fuel) :
    ∃ s', LinkedList.contains fuel s v = .ok (s', decide (v ∈ L)) ∧
      Chain s'.store s'.head L ∧ s.traverseCount ≤ s'.traverseCount := by
  by_cases hv : v ∈ L
  · obtain ⟨pre, post, rfl, hpre⟩ := exists_first_occurrence L v hv
    refine ⟨{ s with traverseCount := s.traverseCount + pre.length + 1 }, ?_, hL, ?_⟩
    · rw [contains_hit s pre post v fuel hL hpre hfuel]
      simp
    · show s.traverseCount ≤ s.traverseCount + (pre.length : Int) + 1
      have : (0 : Int) ≤ (pre.length : Int) := Int.ofNat_nonneg _
      omega
  · refine ⟨{ s with traverseCount := s.traverseCount + L.length }, ?_, hL, ?_⟩
    · rw [contains_miss s L v fuel hL hv hfuel]
      simp [hv]
    · show s.traverseCount ≤ s.traverseCount + (L.length : Int)
      have : (0 : Int) ≤ (L.length : Int) := Int.ofNat_nonneg _
      omega

theorem mtfContains_result (s : LinkedList) (L : List Int) (v : Int) (fuel : Nat)
    (hL : Chain s.store s.head L) (hfuel : L.length < fuel) :
    ∃ s' L', MTFList.contains fuel s v = .ok (s', decide (v ∈ L)) ∧
      Chain s'.store s'.head L' ∧ L'.Perm L ∧ s.traverseCount ≤ s'.traverseCount := by
  by_cases hv : v ∈ L
  · obtain ⟨pre, post, rfl, hpre⟩ := exists_first_occurrence L v hv
    obtain ⟨s', h1, h2, -, -, ht⟩ := mtfContains_hit s pre post v fuel hL hpre hfuel
    refine ⟨s', _, ?_, h2, List.perm_middle.symm, ?_⟩
    · rw [h1]
      simp
    · rw [ht]
      have : (0 : Int) ≤ (pre.length : Int) := Int.ofNat_nonneg _
      omega
  · refine ⟨{ s with traverseCount := s.traverseCount + L.length }, L, ?_, hL,
      List.Perm.refl L, ?_⟩
    · rw [mtfContains_miss s L v fuel hL hv hfuel]
      simp [hv]
    · show s.traverseCount ≤ s.traverseCount + (L.length : Int)
      have : (0 : Int) ≤ (L.length : Int) := Int.ofNat_nonneg _
      omega

/-- A `LinkedList` and an `MTFList` whose elements are permutations of each
other answer a run of queries alike. -/
theorem containsAll_agree (qs : List Int) (s1 s2 : LinkedList) (L1 L2 : List Int) (fuel : Nat)
    (h1 : Chain s1.store s1.head L1) (h2 : Chain s2.store s2.head L2) (hperm : L2.Perm L1)
    (hfuel : L1.length < fuel) :
    ∃ s1' s2', LinkedList.containsAll fuel s1 qs = .ok (s1', qs.map (fun q => decide (q ∈ L1))) ∧
      MTFList.containsAll fuel s2 qs = .ok (s2', qs.map (fun q => decide (q ∈ L1))) ∧
      Chain s1'.store s1'.head L1 ∧ ∃ L2', Chain s2'.store s2'.head L2' ∧ L2'.Perm L1 := by
  induction qs generalizing s1 s2 L2 with
  | nil => exact ⟨s1, s2, rfl, rfl, h1, L2, h2, hperm⟩
  | cons q qs ih =>
    obtain ⟨t1, hc1, hch1, -⟩ := contains_result s1 L1 q fuel h1 hfuel
    obtain ⟨t2, L2', hc2, hch2, hp2, -⟩ :=
      mtfContains_result s2 L2 q fuel h2 (by rw [hperm.length_eq]; exact hfuel)
    have hdec : decide (q ∈ L2) = decide (q ∈ L1) := by
      simp only [hperm.mem_iff]
    rw [hdec] at hc2
    obtain ⟨s1', s2', hr1, hr2, hf1, hf2⟩ := ih t1 t2 L2' hch1 hch2 (hp2.trans hperm)
    refine ⟨s1', s2', ?_, ?_, hf1, hf2⟩
    · rw [LinkedList.containsAll, hc1]
      simp only [hr1, List.map_cons]
    · rw [MTFList.containsAll, hc2]
      simp only [hr2, List.map_cons]

/-! ## Allocation failure -/

/-- C21: when the allocation in `add(v)` fails, `add` returns false, nothing
escapes from it, and the state is the one before the call: store, `head`, size
and traversal counter. -/
theorem add_allocation_failure (s : LinkedList) (v : Int) :
    s.add v none = (s, false) ∧
      ∀ L, Chain s.store s.head L → Chain (s.add v none).1.store (s.add v none).1.head L :=
  ⟨rfl, fun _ hL => hL⟩

/-! ## The traversal counter never goes down -/

/-- C22: on every list, `add` (whether the allocation succeeds or not),
`remove` and `clear` leave the traversal counter as it is, and both `contains`
methods return with a counter that is equal or larger.  A `remove` of a value
that is not the first element returns; a `remove` that returns at all leaves
the counter unchanged. -/
theorem traverse_count_monotone (s : LinkedList) (L : List Int) (fuel : Nat)
    (hL : Chain s.store s.head L) (hfuel : L.length < fuel) :
    (∀ v alloc, (s.add v alloc).1.traverseCount = s.traverseCount) ∧
      (∀ v r, LinkedList.remove fuel s v = .ok r → r.1.traverseCount = s.traverseCount) ∧
      (∀ v, L.head? ≠ some v → ∃ r, LinkedList.remove fuel s v = .ok r ∧
        r.1.traverseCount = s.traverseCount) ∧
      (∃ s', LinkedList.clear fuel s = .ok s' ∧ s'.traverseCount = s.traverseCount) ∧
      (∀ v, ∃ r, LinkedList.contains fuel s v = .ok r ∧ s.traverseCount ≤ r.1.traverseCount) ∧
      (∀ v, ∃ r, MTFList.contains fuel s v = .ok r ∧ s.traverseCount ≤ r.1.traverseCount) := by
  have hrem : ∀ v, L.head? ≠ some v → ∃ r, LinkedList.remove fuel s v = .ok r ∧
      r.1.traverseCount = s.traverseCount := by
    intro v hhead
    by_cases hv : v ∈ L
    · obtain ⟨pre, post, rfl, hpre⟩ := exists_first_occurrence L v hv
      have hne : pre ≠ [] := by
        rintro rfl
        exact hhead rfl
      obtain ⟨s', h1, -, -, h4⟩ := remove_later s pre post v fuel hL hpre hne hfuel
      exact ⟨(s', true), h1, h4⟩
    · exact ⟨(s, false), remove_miss s L v fuel hL hv hfuel, rfl⟩
  refine ⟨?_, ?_, hrem, ?_, ?_, ?_⟩
  · intro v alloc
    cases alloc <;> rfl
  · intro v r hr
    by_cases hhead : L.head? = some v
    · cases L with
      | nil => simp at hhead
      | cons x L =>
        simp only [List.head?_cons, Option.some.injEq] at hhead
        subst hhead
        obtain ⟨k, rfl⟩ : ∃ k, fuel = k + 1 := ⟨fuel - 1, by omega⟩
        rw [remove_first s L x k hL] at hr
        cases hr
    · obtain ⟨r', h1, h2⟩ := hrem v hhead
      rw [h1] at hr
      cases hr
      exact h2
  · obtain ⟨s', h1, -, -, h4⟩ := clear_spec s L fuel hL hfuel
    exact ⟨s', h1, h4⟩
  · intro v
    obtain ⟨s', h1, -, h3⟩ := contains_result s L v fuel hL hfuel
    exact ⟨_, h1, h3⟩
  · intro v
    obtain ⟨s', L', h1, -, -, h4⟩ := mtfContains_result s L v fuel hL hfuel
    exact ⟨_, h1, h4⟩

theorem traverse_count_monotone_witness :
    (∀ v alloc, (sampleList.add v alloc).1.traverseCount = sampleList.traverseCount) ∧
      (∀ v r, LinkedList.remove 4 sampleList v = .ok r →
        r.1.traverseCount = sampleList.traverseCount) ∧
      (∀ v, ([3, 2, 1] : List Int).head? ≠ some v → ∃ r, LinkedList.remove 4 sampleList v = .ok r ∧
        r.1.traverseCount = sampleList.traverseCount) ∧
      (∃ s', LinkedList.clear 4 sampleList = .ok s' ∧
        s'.traverseCount = sampleList.traverseCount) ∧
      (∀ v, ∃ r, LinkedList.contains 4 sampleList v = .ok r ∧
        sampleList.traverseCount ≤ r.1.traverseCount) ∧
      (∀ v, ∃ r, MTFList.contains 4 sampleList v = .ok r ∧
        sampleList.traverseCount ≤ r.1.traverseCount) :=
  traverse_count_monotone sampleList [3, 2, 1] 4 sampleList_chain (by decide)

/-! ## `MTFList` and `LinkedList` answer alike -/

/-- C23: `MTFList::contains(v)` leaves a permutation of the elements, of the
same length; so an `MTFList` and a `LinkedList` holding the same elements
return the same booleans on every run of queries, namely whether each queried
value is among the elements, and the `MTFList` ends with a permutation of
them. -/
theorem mtf_queries_agree (s1 s2 : LinkedList) (L qs : List Int) (v : Int) (fuel : Nat)
    (h1 : Chain s1.store s1.head L) (h2 : Chain s2.store s2.head L)
    (hfuel : L.length < fuel) :
    (∃ s' b L', MTFList.contains fuel s2 v = .ok (s', b) ∧ Chain s'.store s'.head L' ∧
        L'.Perm L ∧ L'.length = L.length) ∧
      ∃ s1' s2' bs, LinkedList.containsAll fuel s1 qs = .ok (s1', bs) ∧
        MTFList.containsAll fuel s2 qs = .ok (s2', bs) ∧
        bs = qs.map (fun q => decide (q ∈ L)) ∧
        Chain s1'.store s1'.head L ∧ ∃ L', Chain s2'.store s2'.head L' ∧ L'.Perm L := by
  constructor
  · obtain ⟨s', L', hc, hch, hp, -⟩ := mtfContains_result s2 L v fuel h2 hfuel
    exact ⟨s', _, L', hc, hch, hp, hp.length_eq⟩
  · obtain ⟨s1', s2', hr1, hr2, hf1, hf2⟩ :=
      containsAll_agree qs s1 s2 L L fuel h1 h2 (List.Perm.refl L) hfuel
    exact ⟨s1', s2', _, hr1, hr2, rfl, hf1, hf2⟩

theorem mtf_queries_agree_witness :
    ((∃ s' b L', MTFList.contains 4 sampleList 1 = .ok (s', b) ∧ Chain s'.store s'.head L' ∧
        L'.Perm [3, 2, 1] ∧ L'.length = ([3, 2, 1] : List Int).length) ∧
      ∃ s1' s2' bs, LinkedList.containsAll 4 sampleList [1, 2, 7] = .ok (s1', bs) ∧
        MTFList.containsAll 4 sampleList [1, 2, 7] = .ok (s2', bs) ∧
        bs = ([1, 2, 7] : List Int).map (fun q => decide (q ∈ ([3, 2, 1] : List Int))) ∧
        Chain s1'.store s1'.head [3, 2, 1] ∧ ∃ L', Chain s2'.store s2'.head L' ∧
          L'.Perm [3, 2, 1]) ∧
      countAndResults (LinkedList.containsAll 4 sampleList [1, 2, 7])
        = some (8, [true, true, false]) ∧
      countAndResults (MTFList.containsAll 4 sampleList [1, 2, 7])
        = some (9, [true, true, false]) :=
  ⟨mtf_queries_agree sampleList sampleList [3, 2, 1] [1, 2, 7] 1 4 sampleList_chain
    sampleList_chain (by decide), by decide, by decide⟩

/-! ## The traversal counter as an `int` -/

theorem wrapInt_of_range (x : Int) (hlo : -2147483648 ≤ x) (hhi : x ≤ 2147483647) :
    wrapInt x = x := by
  unfold wrapInt
  omega

theorem wrapInt_range (x : Int) : -2147483648 ≤ wrapInt x ∧ wrapInt x ≤ 2147483647 := by
  unfold wrapInt
  omega

theorem wrapInt_succ (x : Int) : wrapInt (wrapInt x + 1) = wrapInt (x + 1) := by
  unfold wrapInt
  omega

theorem wrapCounter_of_range (s : LinkedList) (hlo : -2147483648 ≤ s.traverseCount)
    (hhi : s.traverseCount ≤ 2147483647) : wrapCounter s = s := by
  cases s with
  | mk store tc size head =>
    simp only [wrapCounter]
    rw [wrapInt_of_range tc hlo hhi]

/-- The loop of `LinkedList::contains` with an `int` counter does what the loop
with an unbounded counter does, the counter being stored in an `int`. -/
theorem containsLoopInt_eq (v : Int) (fuel : Nat) (s : LinkedList) (c : Option Nat) :
    LinkedList.containsLoopInt v fuel (wrapCounter s) c =
      wrapResult (LinkedList.containsLoop v fuel s c) := by
  induction fuel generalizing s c with
  | zero => rfl
  | succ n ih =>
    cases c with
    | none => rfl
    | some a =>
      rw [LinkedList.containsLoopInt, LinkedList.containsLoop]
      simp only [wrapCounter, wrapInt_succ]
      cases hm : s.store a with
      | none => rfl
      | some nd =>
        simp only []
        by_cases hv : nd.item = v
        · simp only [hv, if_true, wrapResult, wrapCounter]
        · simp only [hv, if_false]
          exact ih { s with traverseCount := s.traverseCount + 1 } nd.next

/-- The loop of `MTFList::contains` with an `int` counter does what the loop
with an unbounded counter does, the counter being stored in an `int`. -/
theorem mtfContainsLoopInt_eq (v : Int) (fuel : Nat) (s : LinkedList) (c p : Option Nat) :
    MTFList.containsLoopInt v fuel (wrapCounter s) c p =
      wrapResult (MTFList.containsLoop v fuel s c p) := by
  induction fuel generalizing s c p with
  | zero => rfl
  | succ n ih =>
    cases c with
    | none => rfl
    | some a =>
      rw [MTFList.containsLoopInt, MTFList.containsLoop]
      simp only [wrapCounter, wrapInt_succ]
      cases hm : s.store a with
      | none => rfl
      | some nd =>
        simp only []
        by_cases hv : nd.item = v
        · simp only [hv, if_true]
          cases p with
          | none => simp only [wrapResult, wrapCounter]
          | some b =>
            simp only []
            cases h1 : Store.setNext s.store (some b) nd.next with
            | error e => rfl
            | ok m1 =>
              simp only []
              cases h2 : Store.setNext m1 (some a) s.head with
              | error e => rfl
              | ok m2 => simp only [wrapResult, wrapCounter]
        · simp only [hv, if_false]
          exact ih { s with traverseCount := s.traverseCount + 1 } nd.next (some a)

theorem containsInt_eq (fuel : Nat) (s : LinkedList) (v : Int)
    (hlo : -2147483648 ≤ s.traverseCount) (hhi : s.traverseCount ≤ 2147483647) :
    LinkedList.containsInt fuel s v = wrapResult (LinkedList.contains fuel s v) := by
  have h := containsLoopInt_eq v fuel s s.head
  rw [wrapCounter_of_range s hlo hhi] at h
  exact h

theorem mtfContainsInt_eq (fuel : Nat) (s : LinkedList) (v : Int)
    (hlo : -2147483648 ≤ s.traverseCount) (hhi : s.traverseCount ≤ 2147483647) :
    MTFList.containsInt fuel s v = wrapResult (MTFList.contains fuel s v) := by
  have h := mtfContainsLoopInt_eq v fuel s s.head none
  rw [wrapCounter_of_range s hlo hhi] at h
  exact h

theorem containsInt_hit (s : LinkedList) (pre post : List Int) (v : Int) (fuel : Nat)
    (hL : Chain s.store s.head (pre ++ v :: post)) (hv : v ∉ pre)
    (hfuel : (pre ++ v :: post).length < fuel)
    (hlo : -2147483648 ≤ s.traverseCount) (hhi : s.traverseCount ≤ 2147483647) :
    LinkedList.containsInt fuel s v =
      .ok ({ s with traverseCount := wrapInt (s.traverseCount + pre.length + 1) }, true) := by
  rw [containsInt_eq fuel s v hlo hhi, contains_hit s pre post v fuel hL hv hfuel]
  rfl

theorem containsInt_miss (s : LinkedList) (L : List Int) (v : Int) (fuel : Nat)
    (hL : Chain s.store s.head L) (hv : v ∉ L) (hfuel : L.length < fuel)
    (hlo : -2147483648 ≤ s.traverseCount) (hhi : s.traverseCount ≤ 2147483647) :
    LinkedList.containsInt fuel s v =
      .ok ({ s with traverseCount := wrapInt (s.traverseCount + L.length) }, false) := by
  rw [containsInt_eq fuel s v hlo hhi, contains_miss s L v fuel hL hv hfuel]
  rfl

theorem mtfContainsInt_miss (s : LinkedList) (L : List Int) (v : Int) (fuel : Nat)
    (hL : Chain s.store s.head L) (hv : v ∉ L) (hfuel : L.length < fuel)
    (hlo : -2147483648 ≤ s.traverseCount) (hhi : s.traverseCount ≤ 2147483647) :
    MTFList.containsInt fuel s v =
      .ok ({ s with traverseCount := wrapInt (s.traverseCount + L.length) }, false) := by
  rw [mtfContainsInt_eq fuel s v hlo hhi, mtfContains_miss s L v fuel hL hv hfuel]
  rfl

theorem mtfContainsInt_hit (s : LinkedList) (pre post : List Int) (v : Int) (fuel : Nat)
    (hL : Chain s.store s.head (pre ++ v :: post)) (hv : v ∉ pre)
    (hfuel : (pre ++ v :: post).length < fuel)
    (hlo : -2147483648 ≤ s.traverseCount) (hhi : s.traverseCount ≤ 2147483647) :
    ∃ s', MTFList.containsInt fuel s v = .ok (s', true) ∧
      Chain s'.store s'.head (v :: (pre ++ post)) ∧
      s'.currentSize = s.currentSize ∧
      s'.traverseCount = wrapInt (s.traverseCount + pre.length + 1) := by
  obtain ⟨t, h1, h2, -, h3, h4⟩ := mtfContains_hit s pre post v fuel hL hv hfuel
  refine ⟨wrapCounter t, ?_, h2, h3, ?_⟩
  · rw [mtfContainsInt_eq fuel s v hlo hhi, h1]
    rfl
  · show wrapInt t.traverseCount = _
    rw [h4]

/-- The states `counterAt t` are reached through the methods alone: `n` calls
`contains(3)` on the list 3, 2, 1 raise the counter from `k` to `k + n`. -/
theorem counterAt_reached (n k : Nat) (h : k + n ≤ 2147483647) :
    LinkedList.containsIntTimes 4 3 n (counterAt k) = .ok (counterAt ((k + n : Nat) : Int)) := by
  induction n generalizing k with
  | zero => rfl
  | succ n ih =>
    have hstep : LinkedList.containsInt 4 (counterAt k) 3 =
        .ok (counterAt ((k + 1 : Nat) : Int), true) := by
      rw [containsInt_hit (counterAt k) [] [2, 1] 3 4 sampleList_chain (by simp) (by decide)
        (show (-2147483648 : Int) ≤ (k : Int) by omega) (show (k : Int) ≤ 2147483647 by omega)]
      have hw : wrapInt ((k : Int) + 0 + 1) = ((k + 1 : Nat) : Int) := by
        rw [wrapInt_of_range _ (by omega) (by omega)]
        push_cast
        ring
      simp only [counterAt, List.length_nil, Nat.cast_zero, hw]
    rw [LinkedList.containsIntTimes, hstep]
    simp only []
    rw [ih (k + 1) (by omega)]
    congr 3
    omega

/-! ## The traversal counter after a search, as the code keeps it -/

/-- C6 as stated fails on the code: on the list 3, 2, 1 with the traversal
counter at 2147483647, a state that 2147483647 calls `contains(3)` reach,
`contains(3)` finds 3 at position 0 and the counter does not become
2147483647 + 1. -/
theorem contains_traverse_count_overflow :
    LinkedList.containsIntTimes 4 3 2147483647 sampleList = .ok (counterAt 2147483647) ∧
      Chain (counterAt 2147483647).store (counterAt 2147483647).head [3, 2, 1] ∧
      ¬ ∃ s' b, LinkedList.containsInt 4 (counterAt 2147483647) 3 = .ok (s', b) ∧
        s'.traverseCount = (counterAt 2147483647).traverseCount + 1 := by
  refine ⟨counterAt_reached 2147483647 0 (by decide), sampleList_chain, ?_⟩
  rintro ⟨s', b, h, ht⟩
  rw [containsInt_hit (counterAt 2147483647) [] [2, 1] 3 4 sampleList_chain (by simp) (by decide)
    (by decide) (by decide)] at h
  cases h
  revert ht
  decide

/-- C6, amended: `LinkedList::contains(v)` leaves the traversal counter at the
`int` value of the old counter plus the number of visited nodes, which is the
0-based position of the first `v` plus one when `v` occurs and the length of
the list when it does not; while that sum is at most 2147483647, the counter
grows by exactly that number. -/
theorem contains_traverse_count_int (s : LinkedList) (L : List Int) (v : Int) (fuel : Nat)
    (hL : Chain s.store s.head L) (hfuel : L.length < fuel)
    (hlo : -2147483648 ≤ s.traverseCount) (hhi : s.traverseCount ≤ 2147483647) :
    ∃ s' b, LinkedList.containsInt fuel s v = .ok (s', b) ∧
      s'.traverseCount = wrapInt (s.traverseCount +
        (if v ∈ L then ((L.indexOf v : Nat) : Int) + 1 else (L.length : Int))) ∧
      (s.traverseCount +
          (if v ∈ L then ((L.indexOf v : Nat) : Int) + 1 else (L.length : Int)) ≤ 2147483647 →
        s'.traverseCount = s.traverseCount +
          (if v ∈ L then ((L.indexOf v : Nat) : Int) + 1 else (L.length : Int))) := by
  by_cases hv : v ∈ L
  · obtain ⟨pre, post, rfl, hpre⟩ := exists_first_occurrence L v hv
    refine ⟨_, true, containsInt_hit s pre post v fuel hL hpre hfuel hlo hhi, ?_, ?_⟩
    · rw [if_pos hv, indexOf_first_occurrence pre post v hpre]
      show wrapInt (s.traverseCount + (pre.length : Int) + 1) = _
      rw [add_assoc]
    · rw [if_pos hv, indexOf_first_occurrence pre post v hpre]
      intro hfit
      show wrapInt (s.traverseCount + (pre.length : Int) + 1) = _
      rw [add_assoc]
      exact wrapInt_of_range _ (by omega) hfit
  · refine ⟨_, false, containsInt_miss s L v fuel hL hv hfuel hlo hhi, ?_, ?_⟩
    · rw [if_neg hv]
    · rw [if_neg hv]
      intro hfit
      exact wrapInt_of_range _ (by omega) hfit

theorem contains_traverse_count_int_witness :
    ∃ s' b, LinkedList.containsInt 4 sampleList 2 = .ok (s', b) ∧
      s'.traverseCount = wrapInt (sampleList.traverseCount +
        (if (2 : Int) ∈ [3, 2, 1] then ((([3, 2, 1] : List Int).indexOf 2 : Nat) : Int) + 1
          else (([3, 2, 1] : List Int).length : Int))) ∧
      (sampleList.traverseCount +
          (if (2 : Int) ∈ [3, 2, 1] then ((([3, 2, 1] : List Int).indexOf 2 : Nat) : Int) + 1
            else (([3, 2, 1] : List Int).length : Int)) ≤ 2147483647 →
        s'.traverseCount = sampleList.traverseCount +
          (if (2 : Int) ∈ [3, 2, 1] then ((([3, 2, 1] : List Int).indexOf 2 : Nat) : Int) + 1
            else (([3, 2, 1] : List Int).length : Int))) :=
  contains_traverse_count_int sampleList [3, 2, 1] 2 4 sampleList_chain (by decide) (by decide)
    (by decide)

/-- C8 as stated fails on the code: on the list 3, 2, 1 with the traversal
counter at 2147483644, a state that 2147483644 calls `contains(3)` reach (they
visit the first node and move nothing in either class), the first `MTFList::contains(1)` leaves the counter at
2147483647, and the second one does not leave it one larger. -/
theorem mtf_contains_twice_overflow :
    LinkedList.containsIntTimes 4 3 2147483644 sampleList = .ok (counterAt 2147483644) ∧
      Chain (counterAt 2147483644).store (counterAt 2147483644).head [3, 2, 1] ∧
      ¬ ∃ s1 s2, MTFList.containsInt 4 (counterAt 2147483644) 1 = .ok (s1, true) ∧
        MTFList.containsInt 4 s1 1 = .ok (s2, true) ∧
        s2.traverseCount = s1.traverseCount + 1 := by
  refine ⟨counterAt_reached 2147483644 0 (by decide), sampleList_chain, ?_⟩
  rintro ⟨s1, s2, h1, h2, ht⟩
  obtain ⟨t1, e1, hc1, -, ht1⟩ := mtfContainsInt_hit (counterAt 2147483644) [3, 2] [] 1 4
    sampleList_chain (by decide) (by decide) (by decide) (by decide)
  obtain ⟨rfl, -⟩ := Prod.mk.inj (Except.ok.inj (e1.symm.trans h1))
  have hv1 : t1.traverseCount = 2147483647 := by
    rw [ht1]
    decide
  obtain ⟨t2, e2, -, -, ht2⟩ := mtfContainsInt_hit t1 [] ([3, 2] ++ []) 1 4 hc1 (by simp)
    (by decide) (by omega) (by omega)
  obtain ⟨rfl, -⟩ := Prod.mk.inj (Except.ok.inj (e2.symm.trans h2))
  rw [ht2, hv1] at ht
  revert ht
  decide

/-- C8, amended: when `v` occurs in the list, `MTFList::contains(v)` returns
true, leaving `v` in front of the other elements and the counter at the `int`
value of the old counter plus the 0-based position of the first `v` plus one;
a second `MTFList::contains(v)` right after it returns true as well and leaves
the counter at the `int` value of one more.  While the old counter plus that
position plus two is at most 2147483647, the first call adds exactly the
position plus one and the second exactly 1. -/
theorem mtf_contains_twice_int (s : LinkedList) (L : List Int) (v : Int) (fuel : Nat)
    (hL : Chain s.store s.head L) (hv : v ∈ L) (hfuel : L.length < fuel)
    (hlo : -2147483648 ≤ s.traverseCount) (hhi : s.traverseCount ≤ 2147483647) :
    ∃ s1 s2, MTFList.containsInt fuel s v = .ok (s1, true) ∧
      s1.traverseCount = wrapInt (s.traverseCount + ((L.indexOf v : Nat) : Int) + 1) ∧
      Chain s1.store s1.head (v :: L.erase v) ∧
      MTFList.containsInt fuel s1 v = .ok (s2, true) ∧
      s2.traverseCount = wrapInt (s1.traverseCount + 1) ∧
      (s.traverseCount + ((L.indexOf v : Nat) : Int) + 2 ≤ 2147483647 →
        s1.traverseCount = s.traverseCount + ((L.indexOf v : Nat) : Int) + 1 ∧
        s2.traverseCount = s1.traverseCount + 1) := by
  obtain ⟨pre, post, rfl, hpre⟩ := exists_first_occurrence L v hv
  obtain ⟨s1, h1, hc1, -, ht1⟩ := mtfContainsInt_hit s pre post v fuel hL hpre hfuel hlo hhi
  have hr1 := wrapInt_range (s.traverseCount + (pre.length : Int) + 1)
  rw [← ht1] at hr1
  have hfuel1 : ([] ++ v :: (pre ++ post)).length < fuel := by
    simp only [List.length_append, List.length_cons, List.nil_append] at hfuel ⊢
    omega
  obtain ⟨s2, h2, -, -, ht2⟩ :=
    mtfContainsInt_hit s1 [] (pre ++ post) v fuel hc1 (by simp) hfuel1 hr1.1 hr1.2
  have ht2' : s2.traverseCount = wrapInt (s1.traverseCount + 1) := by
    simpa using ht2
  rw [indexOf_first_occurrence pre post v hpre, erase_first_occurrence pre post v hpre]
  refine ⟨s1, s2, h1, ht1, hc1, h2, ht2', ?_⟩
  intro hfit
  have e1 : s1.traverseCount = s.traverseCount + (pre.length : Int) + 1 := by
    rw [ht1]
    exact wrapInt_of_range _ (by omega) (by omega)
  refine ⟨e1, ?_⟩
  rw [ht2']
  exact wrapInt_of_range _ (by omega) (by omega)

theorem mtf_contains_twice_int_witness :
    ∃ s1 s2, MTFList.containsInt 4 sampleList 1 = .ok (s1, true) ∧
      s1.traverseCount =
        wrapInt (sampleList.traverseCount + ((([3, 2, 1] : List Int).indexOf 1 : Nat) : Int) + 1) ∧
      Chain s1.store s1.head (1 :: ([3, 2, 1] : List Int).erase 1) ∧
      MTFList.containsInt 4 s1 1 = .ok (s2, true) ∧
      s2.traverseCount = wrapInt (s1.traverseCount + 1) ∧
      (sampleList.traverseCount + ((([3, 2, 1] : List Int).indexOf 1 : Nat) : Int) + 2
          ≤ 2147483647 →
        s1.traverseCount =
          sampleList.traverseCount + ((([3, 2, 1] : List Int).indexOf 1 : Nat) : Int) + 1 ∧
        s2.traverseCount = s1.traverseCount + 1) :=
  mtf_contains_twice_int sampleList [3, 2, 1] 1 4 sampleList_chain (by decide) (by decide)
    (by decide) (by decide)

/-- C9 as stated fails on the code: on the list 3, 2, 1 with the traversal
counter at 2147483647, a state that 2147483647 calls `contains(3)` reach (they
visit the first node and move nothing in either class), `MTFList::contains(33)` returns false after three
visits and the counter is not 2147483647 + 3. -/
theorem mtf_contains_absent_overflow :
    LinkedList.containsIntTimes 4 3 2147483647 sampleList = .ok (counterAt 2147483647) ∧
      Chain (counterAt 2147483647).store (counterAt 2147483647).head [3, 2, 1] ∧
      (33 : Int) ∉ ([3, 2, 1] : List Int) ∧
      ¬ ∃ s', MTFList.containsInt 4 (counterAt 2147483647) 33 = .ok (s', false) ∧
        s'.traverseCount = (counterAt 2147483647).traverseCount + 3 := by
  refine ⟨counterAt_reached 2147483647 0 (by decide), sampleList_chain, by decide, ?_⟩
  rintro ⟨s', h, ht⟩
  rw [mtfContainsInt_miss (counterAt 2147483647) [3, 2, 1] 33 4 sampleList_chain (by decide)
    (by decide) (by decide) (by decide)] at h
  cases h
  revert ht
  decide

/-- C9, amended: when `v` does not occur in the list, `MTFList::contains(v)`
returns false and changes nothing but the traversal counter, which becomes the
`int` value of the old counter plus the length of the list; while that sum is
at most 2147483647, the counter grows by exactly the length. -/
theorem mtf_contains_absent_int (s : LinkedList) (L : List Int) (v : Int) (fuel : Nat)
    (hL : Chain s.store s.head L) (hv : v ∉ L) (hfuel : L.length < fuel)
    (hlo : -2147483648 ≤ s.traverseCount) (hhi : s.traverseCount ≤ 2147483647) :
    MTFList.containsInt fuel s v =
        .ok ({ s with traverseCount := wrapInt (s.traverseCount + L.length) }, false) ∧
      (s.traverseCount + L.length ≤ 2147483647 →
        MTFList.containsInt fuel s v =
          .ok ({ s with traverseCount := s.traverseCount + L.length }, false)) := by
  have h := mtfContainsInt_miss s L v fuel hL hv hfuel hlo hhi
  refine ⟨h, ?_⟩
  intro hfit
  rw [h, wrapInt_of_range _ (by omega) hfit]

theorem mtf_contains_absent_int_witness :
    MTFList.containsInt 4 sampleList 33 =
        .ok ({ sampleList with
          traverseCount := wrapInt (sampleList.traverseCount + ([3, 2, 1] : List Int).length) },
          false) ∧
      (sampleList.traverseCount + ([3, 2, 1] : List Int).length ≤ 2147483647 →
        MTFList.containsInt 4 sampleList 33 =
          .ok ({ sampleList with
            traverseCount := sampleList.traverseCount + ([3, 2, 1] : List Int).length },
            false)) :=
  mtf_contains_absent_int sampleList [3, 2, 1] 33 4 sampleList_chain (by decide) (by decide)
    (by decide) (by decide)

/-- C18 as stated fails on the code: on the list 3, 2, 1 with the traversal
counter at 2147483646, a state that 2147483646 calls `contains(3)` reach, two `LinkedList::contains(3)` calls in a row do not add
the same amount to the counter (the first adds 1, the second wraps around). -/
theorem contains_twice_same_overflow :
    LinkedList.containsIntTimes 4 3 2147483646 sampleList = .ok (counterAt 2147483646) ∧
      Chain (counterAt 2147483646).store (counterAt 2147483646).head [3, 2, 1] ∧
      ¬ ∃ s1 s2 b, LinkedList.containsInt 4 (counterAt 2147483646) 3 = .ok (s1, b) ∧
        LinkedList.containsInt 4 s1 3 = .ok (s2, b) ∧
        s2.traverseCount - s1.traverseCount =
          s1.traverseCount - (counterAt 2147483646).traverseCount := by
  refine ⟨counterAt_reached 2147483646 0 (by decide), sampleList_chain, ?_⟩
  rintro ⟨s1, s2, b, h1, h2, ht⟩
  have e1 := containsInt_hit (counterAt 2147483646) [] [2, 1] 3 4 sampleList_chain (by simp)
    (by decide) (by decide) (by decide)
  obtain ⟨rfl, rfl⟩ := Prod.mk.inj (Except.ok.inj (h1.symm.trans e1))
  have e2 := containsInt_hit (counterAt 2147483647) [] [2, 1] 3 4 sampleList_chain (by simp)
    (by decide) (by decide) (by decide)
  have h2' : LinkedList.containsInt 4 (counterAt 2147483647) 3 = .ok (s2, true) := h2
  obtain ⟨rfl, -⟩ := Prod.mk.inj (Except.ok.inj (h2'.symm.trans e2))
  revert ht
  decide

/-- C18, amended: `LinkedList::contains(v)` leaves the store, `head` and the
size as they are, so a second `LinkedList::contains(v)` right after it returns
the same boolean; while the old counter plus twice the number of visited nodes
is at most 2147483647, both calls add the same amount to the traversal
counter. -/
theorem contains_twice_same_int (s : LinkedList) (L : List Int) (v : Int) (fuel : Nat)
    (hL : Chain s.store s.head L) (hfuel : L.length < fuel)
    (hlo : -2147483648 ≤ s.traverseCount) (hhi : s.traverseCount ≤ 2147483647) :
    ∃ s1 s2 b, LinkedList.containsInt fuel s v = .ok (s1, b) ∧
      s1.store = s.store ∧ s1.head = s.head ∧ s1.currentSize = s.currentSize ∧
      Chain s1.store s1.head L ∧
      LinkedList.containsInt fuel s1 v = .ok (s2, b) ∧
      (s.traverseCount +
          2 * (if v ∈ L then ((L.indexOf v : Nat) : Int) + 1 else (L.length : Int)) ≤ 2147483647 →
        s2.traverseCount - s1.traverseCount = s1.traverseCount - s.traverseCount) := by
  by_cases hv : v ∈ L
  · obtain ⟨pre, post, rfl, hpre⟩ := exists_first_occurrence L v hv
    have hr := wrapInt_range (s.traverseCount + (pre.length : Int) + 1)
    refine ⟨_, _, true, containsInt_hit s pre post v fuel hL hpre hfuel hlo hhi, rfl, rfl, rfl,
      hL, containsInt_hit _ pre post v fuel hL hpre hfuel hr.1 hr.2, ?_⟩
    rw [if_pos hv, indexOf_first_occurrence pre post v hpre]
    intro hfit
    show wrapInt (wrapInt (s.traverseCount + (pre.length : Int) + 1) + (pre.length : Int) + 1)
        - wrapInt (s.traverseCount + (pre.length : Int) + 1)
      = wrapInt (s.traverseCount + (pre.length : Int) + 1) - s.traverseCount
    rw [wrapInt_of_range (s.traverseCount + (pre.length : Int) + 1) (by omega) (by omega),
      wrapInt_of_range _ (by omega) (by omega)]
    ring
  · have hr := wrapInt_range (s.traverseCount + (L.length : Int))
    refine ⟨_, _, false, containsInt_miss s L v fuel hL hv hfuel hlo hhi, rfl, rfl, rfl,
      hL, containsInt_miss _ L v fuel hL hv hfuel hr.1 hr.2, ?_⟩
    rw [if_neg hv]
    intro hfit
    show wrapInt (wrapInt (s.traverseCount + (L.length : Int)) + (L.length : Int))
        - wrapInt (s.traverseCount + (L.length : Int))
      = wrapInt (s.traverseCount + (L.length : Int)) - s.traverseCount
    rw [wrapInt_of_range (s.traverseCount + (L.length : Int)) (by omega) (by omega),
      wrapInt_of_range _ (by omega) (by omega)]
    ring

theorem contains_twice_same_int_witness :
    ∃ s1 s2 b, LinkedList.containsInt 4 sampleList 2 = .ok (s1, b) ∧
      s1.store = sampleList.store ∧ s1.head = sampleList.head ∧
      s1.currentSize = sampleList.currentSize ∧
      Chain s1.store s1.head [3, 2, 1] ∧
      LinkedList.containsInt 4 s1 2 = .ok (s2, b) ∧
      (sampleList.traverseCount +
          2 * (if (2 : Int) ∈ [3, 2, 1] then ((([3, 2, 1] : List Int).indexOf 2 : Nat) : Int) + 1
            else (([3, 2, 1] : List Int).length : Int)) ≤ 2147483647 →
        s2.traverseCount - s1.traverseCount = s1.traverseCount - sampleList.traverseCount) :=
  contains_twice_same_int sampleList [3, 2, 1] 2 4 sampleList_chain (by decide) (by decide)
    (by decide)
